import Mathlib

/-!
Verification of the document-to-structured-transaction pipeline of
`src/server/src/services/AIAnalysisService.ts` (and the summary recomputation
in `src/server/src/routes/analysis.ts`).

Strings are modelled as `List Char` (wrapped into `String` at the interface),
JavaScript numbers as `ℚ` (all amounts in play are small decimals, on which
binary floating point and exact rationals agree), and the JavaScript regular
expressions of the source are modelled by hand-written deterministic matchers
that follow the engine's leftmost-match / greedy-with-backtracking semantics
for the concrete patterns involved.  Character classes (`\s`, `\w`, `[A-Z]`,
`\d`) are modelled on their ASCII content, which covers every input the
claims mention.
-/

namespace Bnk

/-- JavaScript regex class `\s` restricted to its ASCII members. -/
def isWsC (c : Char) : Bool :=
  c = ' ' || c = '\t' || c = '\n' || c = '\r' || c = '\x0b' || c = '\x0c'

/-- Regex class `[A-Z]`. -/
def isUpC (c : Char) : Bool := 'A' ≤ c && c ≤ 'Z'

/-- JavaScript regex class `\w` (ASCII): letters, digits, underscore. -/
def isWordC (c : Char) : Bool :=
  ('A' ≤ c && c ≤ 'Z') || ('a' ≤ c && c ≤ 'z') || ('0' ≤ c && c ≤ '9') || c = '_'


/-- Regex class `\\d`. -/
def isDigitC (c : Char) : Bool := '0' ≤ c && c ≤ '9'

/-! ### Rational arithmetic helpers

The standard `Rat.add`, `Rat.mul`, `Rat.inv` and `Rat.ofScientific` are marked
irreducible upstream; the pipeline's arithmetic is therefore expressed through
`mkRat`, which evaluates, and bridge lemmas below relate the helpers to the
standard operations. -/

/-- Addition on `ℚ` by cross multiplication. -/
def qAdd (a b : ℚ) : ℚ := mkRat (a.num * b.den + b.num * a.den) (a.den * b.den)

/-- Multiplication on `ℚ`. -/
def qMul (a b : ℚ) : ℚ := mkRat (a.num * b.num) (a.den * b.den)

/-- `Math.abs`. -/
def qAbs (a : ℚ) : ℚ := if a.num < 0 then mkRat (-a.num) a.den else a

/-- Strict comparison on `ℚ` by cross multiplication. -/
def qBlt (a b : ℚ) : Bool := decide (a.num * b.den < b.num * a.den)

/-- Scaling by an integer power of ten. -/
def qMulPow10 (m : ℚ) (e : ℤ) : ℚ :=
  match e with
  | .ofNat n => qMul m (mkRat ((10 : ℕ) ^ n) 1)
  | .negSucc n => qMul m (mkRat 1 ((10 : ℕ) ^ (n + 1)))

/-- Attempt to match the tail `\s+([A-Z])\s+([A-Z])` of the character-despacing
regex `/\b([A-Z])\s+([A-Z])\s+([A-Z])/` once its second capture `y` has been
read: requires a nonempty whitespace run followed by a capital `z`.  Returns
the two captures and the text after the match. -/
def tm2 (y : Char) (r2 : List Char) : Option (Char × Char × List Char) :=
  if (r2.takeWhile isWsC).isEmpty then none
  else match r2.dropWhile isWsC with
    | [] => none
    | z :: tail => if isUpC z then some (y, z, tail) else none

/-- Attempt to match `\s+([A-Z])\s+([A-Z])` (everything of the despacing regex
after its first capture) at the head of `rest`. -/
def tryMatch (rest : List Char) : Option (Char × Char × List Char) :=
  if (rest.takeWhile isWsC).isEmpty then none
  else match rest.dropWhile isWsC with
    | [] => none
    | y :: r2 => if isUpC y then tm2 y r2 else none

/-- Fuel-driven scanner for `text.replace(/\b([A-Z])\s+([A-Z])\s+([A-Z])/g, '$1$2$3')`
(AIAnalysisService.ts line 201).  `prev` records whether the previous character
was a word character (for the `\b` assertion); on a match the three captured
capitals are emitted glued together and scanning resumes after the match, as
the JavaScript engine does for a global replace. -/
def fixCapsF : Nat → Bool → List Char → List Char
  | 0, _, l => l
  | _ + 1, _, [] => []
  | fuel + 1, prev, c :: rest =>
    if !prev && isUpC c then
      match tryMatch rest with
      | some (y, z, tail) => c :: y :: z :: fixCapsF fuel true tail
      | none => c :: fixCapsF fuel (isWordC c) rest
    else c :: fixCapsF fuel (isWordC c) rest

/-- The despacing pass with enough fuel to process the whole list. -/
def fixCapsGo (prev : Bool) (l : List Char) : List Char := fixCapsF l.length prev l

/-- Model of `.replace(/\s+/g, ' ')` (line 202): every maximal whitespace run
becomes a single space. -/
def collapseWs : List Char → List Char
  | [] => []
  | [c] => if isWsC c then [' '] else [c]
  | c :: d :: rest =>
    if isWsC c then
      if isWsC d then collapseWs (d :: rest)
      else ' ' :: collapseWs (d :: rest)
    else c :: collapseWs (d :: rest)

/-- Drop a maximal whitespace suffix (the right half of `String.prototype.trim`). -/
def dropEndWs : List Char → List Char
  | [] => []
  | c :: r =>
    match dropEndWs r with
    | [] => if isWsC c then [] else [c]
    | r' => c :: r'

/-- Model of `.trim()` (line 203). -/
def trimWs (l : List Char) : List Char := dropEndWs (l.dropWhile isWsC)

/-- Model of `String.prototype.split` on a single-character separator:
splits at every occurrence, keeping empty segments (`"".split` gives `[""]`). -/
def splitOnP (p : Char → Bool) (l : List Char) : List (List Char) :=
  l.foldr
    (fun c acc =>
      if p c then [] :: acc
      else
        match acc with
        | [] => [[c]]
        | a :: as => (c :: a) :: as)
    [[]]

/-- Model of one step of the word-reconstruction loop (lines 207-215): a line
whose whitespace-split tokens are more than 50% single characters, with more
than 10 tokens, is joined with no separator; otherwise it is kept as is. -/
def reconLine (line : List Char) : List Char :=
  let words := splitOnP (fun c => c = ' ') line
  if 10 < words.length ∧ words.length < 2 * (words.filter (fun w => w.length = 1)).length
  then words.flatten
  else line

/-- Model of `lines.join('\n')`. -/
def joinNl : List (List Char) → List Char
  | [] => []
  | [l] => l
  | l :: ls => l ++ '\n' :: joinNl ls

/-- Model of `cleanExtractedText` (lines 197-218) on character lists. -/
def cleanList (l : List Char) : List Char :=
  let cleaned := trimWs (collapseWs (fixCapsGo false l))
  joinNl ((splitOnP (fun c => c = '\n') cleaned).map reconLine)

/-- `cleanExtractedText` at the `String` interface. -/
def cleanExtractedText (s : String) : String := ⟨cleanList s.data⟩

/-! ## Number parsing (`parseFloat`) -/

/-- Numeric value of a digit run. -/
def digitsVal (l : List Char) : Nat := l.foldl (fun n c => 10 * n + (c.toNat - 48)) 0

/-- The mantissa-and-exponent part of JavaScript `parseFloat`: leading digits,
an optional fraction, and an optional exponent, read as a prefix of the input.
Returns `none` (NaN) when no digit is found. -/
def parseFloatCore (l : List Char) : Option ℚ :=
  let ip := l.takeWhile isDigitC
  let r1 := l.drop ip.length
  let (fp, r2) :=
    match r1 with
    | '.' :: r => (r.takeWhile isDigitC, r.drop (r.takeWhile isDigitC).length)
    | _ => ([], r1)
  if ip.isEmpty ∧ fp.isEmpty then none
  else
    let mant : ℚ := qAdd (mkRat (digitsVal ip) 1) (mkRat (digitsVal fp) ((10 : ℕ) ^ fp.length))
    let expo : ℤ :=
      match r2 with
      | e :: r3 =>
        if e = 'e' ∨ e = 'E' then
          let (sgn, r4) :=
            match r3 with
            | '+' :: r => ((1 : ℤ), r)
            | '-' :: r => ((-1 : ℤ), r)
            | _ => ((1 : ℤ), r3)
          let ed := r4.takeWhile isDigitC
          if ed.isEmpty then 0 else sgn * (digitsVal ed : ℤ)
        else 0
      | [] => 0
    some (qMulPow10 mant expo)

/-- JavaScript `parseFloat`: skip leading whitespace, read an optional sign and
then a numeric prefix; `none` models NaN. -/
def parseFloatQ (l : List Char) : Option ℚ :=
  match l.dropWhile isWsC with
  | '-' :: r => (parseFloatCore r).map (fun q => mkRat (-q.num) q.den)
  | '+' :: r => parseFloatCore r
  | r => parseFloatCore r

/-- Decimal rendering of the rationals produced by `parseFloatQ`, matching how
JavaScript prints such numbers inside template strings (integer values print
with no point; fractional values print their shortest decimal expansion, which
for the scaled-by-a-power-of-ten values arising here is the expansion found by
the scale search below). -/
def qToStr (q : ℚ) : List Char :=
  let sign : List Char := if q.num < 0 then ['-'] else []
  let a : ℚ := qAbs q
  let rec scale (a : ℚ) : Nat → Option Nat
    | 0 => if a.den = 1 then some 0 else none
    | k + 1 =>
      match scale a k with
      | some j => some j
      | none => if (qMul a (mkRat ((10 : ℕ) ^ (k + 1)) 1)).den = 1 then some (k + 1) else none
  match scale a 20 with
  | some 0 => sign ++ (Nat.toDigits 10 a.num.toNat)
  | some k =>
    let units := (qMul a (mkRat ((10 : ℕ) ^ k) 1)).num.toNat
    let ds := Nat.toDigits 10 units
    let ds := if ds.length ≤ k then List.replicate (k + 1 - ds.length) '0' ++ ds else ds
    sign ++ ds.take (ds.length - k) ++ '.' :: ds.drop (ds.length - k)
  | none => sign ++ (Nat.toDigits 10 a.num.toNat) ++ '/' :: Nat.toDigits 10 a.den

/-! ## The fallback analyser's regular expressions -/

/-- Regex class `[\/\-]`, the date separators. -/
def dSep (c : Char) : Bool := c = '/' || c = '-'

/-- Match `[\/\-]\d{2,4}` (the year part of the date pattern, greedy, at the
end of the pattern so without backtracking). -/
def dateTail2 (r : List Char) : Option (List Char × List Char) :=
  match r with
  | s :: rest =>
    if dSep s then
      let ds := (rest.takeWhile isDigitC).take 4
      if 2 ≤ ds.length then some (s :: ds, rest.drop ds.length) else none
    else none
  | [] => none

/-- Match `\d{1,2}[\/\-]\d{2,4}` (month then year), trying the two-digit month
first as the greedy engine does, then backtracking to one digit. -/
def dateTail1 (r : List Char) : Option (List Char × List Char) :=
  match r with
  | a :: rest =>
    if isDigitC a then
      (match rest with
       | b :: rest2 =>
         if isDigitC b then (dateTail2 rest2).map (fun m => (a :: b :: m.1, m.2)) else none
       | [] => none) <|>
      (dateTail2 rest).map (fun m => (a :: m.1, m.2))
    else none
  | [] => none

/-- Match `[\/\-]\d{1,2}[\/\-]\d{2,4}`. -/
def dateTailS1 (r : List Char) : Option (List Char × List Char) :=
  match r with
  | s :: rest => if dSep s then (dateTail1 rest).map (fun m => (s :: m.1, m.2)) else none
  | [] => none

/-- Match the date pattern `/(\d{1,2}[\/\-]\d{1,2}[\/\-]\d{2,4})/`
(AIAnalysisService.ts line 235) at the current position, returning the matched
text and the remainder. -/
def matchDateAt (l : List Char) : Option (List Char × List Char) :=
  match l with
  | a :: rest =>
    if isDigitC a then
      (match rest with
       | b :: rest2 =>
         if isDigitC b then (dateTailS1 rest2).map (fun m => (a :: b :: m.1, m.2)) else none
       | [] => none) <|>
      (dateTailS1 rest).map (fun m => (a :: m.1, m.2))
    else none
  | [] => none

/-- Greedy run of `(?:,\d{3})*` groups. -/
def eatCommaGroups : List Char → List Char × List Char
  | ',' :: a :: b :: c :: r =>
    if isDigitC a && isDigitC b && isDigitC c then
      let m := eatCommaGroups r
      (',' :: a :: b :: c :: m.1, m.2)
    else ([], ',' :: a :: b :: c :: r)
  | l => ([], l)

/-- Match `£?\d{1,3}(?:,\d{3})*(?:\.\d{2})?` at the current position (the
signless core of the amount pattern; the optional groups can match empty, so
the engine never backtracks into the digit count). -/
def matchAmountCore (l : List Char) : Option (List Char × List Char) :=
  let (pfx, r2) :=
    match l with
    | '£' :: r => (['£'], r)
    | _ => (([] : List Char), l)
  let ds := (r2.takeWhile isDigitC).take 3
  if ds.isEmpty then none
  else
    let r3 := r2.drop ds.length
    let (commas, r4) := eatCommaGroups r3
    let (dec, r5) :=
      match r4 with
      | '.' :: a :: b :: r =>
        if isDigitC a && isDigitC b then (['.', a, b], r) else (([] : List Char), r4)
      | _ => (([] : List Char), r4)
    some (pfx ++ ds ++ commas ++ dec, r5)

/-- Match the amount pattern `/([+-]?£?\d{1,3}(?:,\d{3})*(?:\.\d{2})?)/`
(AIAnalysisService.ts line 234) at the current position. -/
def matchAmountAt (l : List Char) : Option (List Char × List Char) :=
  match l with
  | c :: r =>
    if c = '+' ∨ c = '-' then (matchAmountCore r).map (fun m => (c :: m.1, m.2))
    else matchAmountCore l
  | [] => none

/-- All matches of a global regex: scan left to right, at each position try the
matcher; on a match record it and resume after it, otherwise advance one
character (every matcher used consumes at least one character). -/
def gMatches (f : List Char → Option (List Char × List Char)) : Nat → List Char → List (List Char)
  | 0, _ => []
  | _ + 1, [] => []
  | fuel + 1, c :: rest =>
    match f (c :: rest) with
    | some (m, r) => m :: gMatches f fuel r
    | none => gMatches f fuel rest

/-- `String.prototype.replace` with a global regex and empty replacement. -/
def gRemove (f : List Char → Option (List Char × List Char)) : Nat → List Char → List Char
  | 0, l => l
  | _ + 1, [] => []
  | fuel + 1, c :: rest =>
    match f (c :: rest) with
    | some (_, r) => gRemove f fuel r
    | none => c :: gRemove f fuel rest

/-- First match of a non-global regex. -/
def findFirst (f : List Char → Option (List Char × List Char)) : Nat → List Char → Option (List Char)
  | 0, _ => none
  | _ + 1, [] => none
  | fuel + 1, c :: rest =>
    match f (c :: rest) with
    | some (m, _) => some m
    | none => findFirst f fuel rest

/-- `String.prototype.replace` with a non-global regex and empty replacement. -/
def removeFirst (f : List Char → Option (List Char × List Char)) : Nat → List Char → List Char
  | 0, l => l
  | _ + 1, [] => []
  | fuel + 1, c :: rest =>
    match f (c :: rest) with
    | some (_, r) => r
    | none => c :: removeFirst f fuel rest

/-! ## Data model -/

/-- The `Transaction` interface (AIAnalysisService.ts lines 3-10).  The
JavaScript objects are dynamically typed; the pipeline only ever stores a
string date/description/category, a numeric amount and confidence, and an
optional string subcategory, which this structure captures. -/
structure Transaction where
  date : String
  description : String
  amount : ℚ
  category : String
  subcategory : Option String := none
  confidence : ℚ
deriving DecidableEq, Repr

/-- The `summary` block of `AnalysisResult` (lines 14-20).  The two `Record`s
are modelled as association lists in insertion order, which is how JavaScript
object keys behave. -/
structure Summary where
  totalTransactions : Nat
  categorizedTransactions : Nat
  categoryBreakdown : List (String × Nat)
  totalAmount : ℚ
  categoryAmounts : List (String × ℚ)
deriving DecidableEq, Repr

/-- The `AnalysisResult` interface (lines 12-21). -/
structure AnalysisResult where
  transactions : List Transaction
  summary : Summary
deriving DecidableEq, Repr

/-- `record[key] = (record[key] || 0) + v` on an insertion-ordered record, with
an explicit addition. -/
def upsertAdd {α : Type} (f : α → α → α) (m : List (String × α)) (k : String) (v : α) :
    List (String × α) :=
  match m with
  | [] => [(k, v)]
  | (k', v') :: rest =>
    if k' = k then (k', f v' v) :: rest else (k', v') :: upsertAdd f rest k v

/-- The summary aggregation loop shared by `parseAnalysisResult`
(lines 164-187) and the manual-correction route (analysis.ts lines 113-130):
category defaults to `'Unknown'` when falsy, a transaction counts as
categorized when its category is truthy and not `'Unknown'`, and all sums use
`Math.abs`. -/
def computeSummary (ts : List Transaction) : Summary :=
  let folded := ts.foldl
    (fun (acc : List (String × Nat) × List (String × ℚ) × ℚ) (t : Transaction) =>
      (upsertAdd Nat.add acc.1 (if t.category = "" then "Unknown" else t.category) 1,
        upsertAdd qAdd acc.2.1 (if t.category = "" then "Unknown" else t.category) (qAbs t.amount),
        qAdd acc.2.2 (qAbs t.amount)))
    ([], [], 0)
  { totalTransactions := ts.length
    categorizedTransactions := (ts.filter (fun t => t.category ≠ "" ∧ t.category ≠ "Unknown")).length
    categoryBreakdown := folded.1
    totalAmount := folded.2.2
    categoryAmounts := folded.2.1 }

/-- The summary loop of `fallbackAnalysis` (lines 331-353): here the category
is used as is and `categorizedTransactions` only excludes `'Unknown'`. -/
def fallbackSummary (ts : List Transaction) : Summary :=
  let folded := ts.foldl
    (fun (acc : List (String × Nat) × List (String × ℚ) × ℚ) (t : Transaction) =>
      (upsertAdd Nat.add acc.1 t.category 1, upsertAdd qAdd acc.2.1 t.category (qAbs t.amount),
        qAdd acc.2.2 (qAbs t.amount)))
    ([], [], 0)
  { totalTransactions := ts.length
    categorizedTransactions := (ts.filter (fun t => t.category ≠ "Unknown")).length
    categoryBreakdown := folded.1
    totalAmount := folded.2.2
    categoryAmounts := folded.2.1 }

/-! ## Category guessing and date normalisation -/

/-- Substring containment, `String.prototype.includes`. -/
def hasSub (pat : List Char) : List Char → Bool
  | [] => pat.isEmpty
  | c :: t => pat.isPrefixOf (c :: t) || hasSub pat t

/-- `guessCategory` (AIAnalysisService.ts lines 435-458): case-insensitive
keyword table, first match wins. -/
def guessCategory (description : String) : String :=
  let desc := description.data.map Char.toLower
  if hasSub "office".data desc || hasSub "supplies".data desc || hasSub "stationery".data desc then
    "Office costs"
  else if hasSub "travel".data desc || hasSub "hotel".data desc || hasSub "transport".data desc then
    "Travel costs"
  else if hasSub "software".data desc || hasSub "computer".data desc || hasSub "equipment".data desc then
    "Equipment and software"
  else if hasSub "marketing".data desc || hasSub "advertising".data desc || hasSub "entertainment".data desc then
    "Marketing and entertainment"
  else if hasSub "legal".data desc || hasSub "accountant".data desc || hasSub "insurance".data desc then
    "Legal and financial costs"
  else if hasSub "salary".data desc || hasSub "staff".data desc || hasSub "employee".data desc then
    "Staff costs"
  else "Unknown"

/-- `padStart(2, '0')`. -/
def pad2 (l : List Char) : List Char :=
  if 2 ≤ l.length then l else List.replicate (2 - l.length) '0' ++ l

/-- `normalizeDate` (lines 424-433) on character lists: split on `/` or `-`;
with exactly three parts, expand a two-digit year with `20` and zero-pad day
and month; otherwise return the input unchanged. -/
def normalizeDateL (l : List Char) : List Char :=
  match splitOnP dSep l with
  | [d, m, y] => (if y.length = 2 then '2' :: '0' :: y else y) ++ '-' :: pad2 m ++ '-' :: pad2 d
  | _ => l

/-- `normalizeDate` at the `String` interface. -/
def normalizeDate (s : String) : String := ⟨normalizeDateL s.data⟩

/-! ## The fallback analyser -/

/-- `amt.replace(/[£,]/g, '')`. -/
def stripCurrency (l : List Char) : List Char := l.filter (fun c => !(c = '£' || c = ','))

/-- `amounts.reduce((max, curr) => Math.abs(curr) > Math.abs(max) ? curr : max)`. -/
def maxAbsReduce : ℚ → List ℚ → ℚ
  | m, [] => m
  | m, x :: r => maxAbsReduce (if qBlt (qAbs m) (qAbs x) then x else m) r

/-- One iteration of the per-line loop of `fallbackAnalysis` (lines 231-271):
a line with a date match and at least one amount match yields a transaction
whose amount is the match of greatest absolute value and whose description is
the line with the first date match and all amount matches removed. -/
def processLine (idx : Nat) (line : List Char) : Option Transaction :=
  match findFirst matchDateAt line.length line with
  | none => none
  | some dm =>
    match gMatches matchAmountAt line.length line with
    | [] => none
    | m :: ms =>
      let amounts := (m :: ms).filterMap (fun a => parseFloatQ (stripCurrency a))
      match amounts with
      | [] => none
      | a0 :: arest =>
        let amount := maxAbsReduce a0 arest
        let noDate := removeFirst matchDateAt line.length line
        let desc0 := trimWs (collapseWs (gRemove matchAmountAt noDate.length noDate))
        let description :=
          if desc0.length < 3 then "Transaction ".data ++ (Nat.toDigits 10 (idx + 1)) else desc0
        some
          { date := ⟨normalizeDateL dm⟩
            description := ⟨description⟩
            amount := amount
            category := guessCategory ⟨description⟩
            confidence := 65 }

/-- `[...new Set(xs)]`: deduplicate keeping first occurrences. -/
def dedupQ (l : List ℚ) : List ℚ :=
  l.foldl (fun acc x => if x ∈ acc then acc else acc ++ [x]) []

/-- The secondary amount scan of `fallbackAnalysis` (lines 276-298): collect
all signless amount tokens, deduplicate their numeric values, keep those
strictly between 0 and 10000, and make at most ten synthetic expenses. -/
def secondaryScan (cleaned : List Char) : List Transaction :=
  match gMatches matchAmountCore cleaned.length cleaned with
  | [] => []
  | m :: ms =>
    let uniq := (dedupQ ((m :: ms).filterMap (fun a => parseFloatQ (stripCurrency a)))).filter
      (fun a => qBlt 0 a && qBlt a 10000)
    (uniq.take 10).map fun a =>
      { date := "2025-06-15"
        description := ⟨"Transaction from PDF - Amount ".data ++ qToStr a⟩
        amount := -a
        category := "Other expenses"
        confidence := 45 }

/-- The three demonstration transactions (lines 301-329); `today` models
`new Date().toISOString().split('T')[0]`. -/
def demoTransactions (today : String) : List Transaction :=
  [ { date := today, description := "PDF Processing Demo - Office Supplies",
      amount := mkRat (-4599) 100, category := "Office costs",
      subcategory := some "Supplies", confidence := 75 },
    { date := today, description := "PDF Processing Demo - Software License",
      amount := mkRat (-2999) 100, category := "Equipment and software",
      subcategory := some "Software", confidence := 80 },
    { date := today, description := "PDF Processing Demo - Travel Expense",
      amount := mkRat (-12550) 100, category := "Travel costs",
      subcategory := some "Transport", confidence := 70 } ]

/-- `fallbackAnalysis` (lines 221-355): clean the text, run the per-line
primary pattern, fall back to the secondary amount scan when it produced
nothing, then to the fixed demo transactions, and aggregate the summary. -/
def fallbackAnalysis (today : String) (extractedText : String) : AnalysisResult :=
  let cleaned := cleanList extractedText.data
  let lines := splitOnP (fun c => c = '\n') cleaned
  let txs1 := lines.enum.filterMap (fun il => processLine il.1 il.2)
  let txs2 := if txs1.isEmpty then secondaryScan cleaned else txs1
  let txs3 := if txs2.isEmpty then demoTransactions today else txs2
  { transactions := txs3, summary := fallbackSummary txs3 }

/-! ## JSON values and strict parsing (`JSON.parse`) -/

/-- JSON values. -/
inductive Jv where
  | jnull : Jv
  | jbool : Bool → Jv
  | jnum : ℚ → Jv
  | jstr : List Char → Jv
  | jarr : List Jv → Jv
  | jobj : List (List Char × Jv) → Jv

/-- JavaScript object property assignment `o[k] = v`: overwrite in place when
the key exists, append otherwise. -/
def setFieldL (fs : List (List Char × Jv)) (k : List Char) (v : Jv) : List (List Char × Jv) :=
  match fs with
  | [] => [(k, v)]
  | (k', v') :: rest => if k' = k then (k', v) :: rest else (k', v') :: setFieldL rest k v

/-- JSON's whitespace class. -/
def isWsJ (c : Char) : Bool := c = ' ' || c = '\t' || c = '\n' || c = '\r'

/-- Parse the remainder of a JSON string literal after the opening quote. -/
def jStringTail : Nat → List Char → Option (List Char × List Char)
  | 0, _ => none
  | _ + 1, [] => none
  | fuel + 1, c :: r =>
    if c = '"' then some ([], r)
    else if c = '\\' then
      match r with
      | e :: r2 =>
        let esc : Option Char :=
          if e = '"' then some '"'
          else if e = '\\' then some '\\'
          else if e = '/' then some '/'
          else if e = 'n' then some '\n'
          else if e = 't' then some '\t'
          else if e = 'r' then some '\r'
          else if e = 'b' then some '\x08'
          else if e = 'f' then some '\x0c'
          else none
        match esc with
        | some ch => (jStringTail fuel r2).map (fun p => (ch :: p.1, p.2))
        | none => none
      | [] => none
    else if c.toNat < 32 then none
    else (jStringTail fuel r).map (fun p => (c :: p.1, p.2))

/-- Parse a strict JSON number (no leading zeros, mandatory fraction and
exponent digits). -/
def jNumber (l : List Char) : Option (ℚ × List Char) :=
  let (sgn, r1) :=
    match l with
    | '-' :: r => ((-1 : ℚ), r)
    | _ => ((1 : ℚ), l)
  let ipO : Option (List Char × List Char) :=
    match r1 with
    | '0' :: r2 =>
      match r2 with
      | d :: _ => if isDigitC d then none else some (['0'], r2)
      | [] => some (['0'], [])
    | c :: _ =>
      if isDigitC c then some (r1.takeWhile isDigitC, r1.drop (r1.takeWhile isDigitC).length)
      else none
    | [] => none
  match ipO with
  | none => none
  | some (ip, r2) =>
    let fpO : Option (List Char × List Char) :=
      match r2 with
      | '.' :: r3 =>
        let fp := r3.takeWhile isDigitC
        if fp.isEmpty then none else some (fp, r3.drop fp.length)
      | _ => some ([], r2)
    match fpO with
    | none => none
    | some (fp, r4) =>
      let exO : Option (ℤ × List Char) :=
        match r4 with
        | e :: r5 =>
          if e = 'e' ∨ e = 'E' then
            let (es, r6) :=
              match r5 with
              | '+' :: r => ((1 : ℤ), r)
              | '-' :: r => ((-1 : ℤ), r)
              | _ => ((1 : ℤ), r5)
            let ed := r6.takeWhile isDigitC
            if ed.isEmpty then none else some (es * (digitsVal ed : ℤ), r6.drop ed.length)
          else some (0, r4)
        | [] => some (0, r4)
      match exO with
      | none => none
      | some (ex, r7) =>
        let mant : ℚ := qAdd (mkRat (digitsVal ip) 1) (mkRat (digitsVal fp) ((10 : ℕ) ^ fp.length))
        some (qMulPow10 (qMul sgn mant) ex, r7)

mutual

/-- Parse one JSON value (fuel-driven recursive descent). -/
def jValue : Nat → List Char → Option (Jv × List Char)
  | 0, _ => none
  | fuel + 1, l =>
    match l.dropWhile isWsJ with
    | '\x7b' :: r =>
      (match r.dropWhile isWsJ with
       | '\x7d' :: r2 => some (Jv.jobj [], r2)
       | _ => jMembers fuel r [])
    | '[' :: r =>
      (match r.dropWhile isWsJ with
       | ']' :: r2 => some (Jv.jarr [], r2)
       | _ => jElems fuel r [])
    | '"' :: r => (jStringTail fuel r).map (fun p => (Jv.jstr p.1, p.2))
    | 't' :: r => if "rue".data.isPrefixOf r then some (Jv.jbool true, r.drop 3) else none
    | 'f' :: r => if "alse".data.isPrefixOf r then some (Jv.jbool false, r.drop 4) else none
    | 'n' :: r => if "ull".data.isPrefixOf r then some (Jv.jnull, r.drop 3) else none
    | l' => (jNumber l').map (fun p => (Jv.jnum p.1, p.2))

/-- Parse the members of a JSON object (after `{`); duplicate keys overwrite
earlier ones, as in JavaScript. -/
def jMembers : Nat → List Char → List (List Char × Jv) → Option (Jv × List Char)
  | 0, _, _ => none
  | fuel + 1, l, acc =>
    match l.dropWhile isWsJ with
    | '"' :: r =>
      match jStringTail fuel r with
      | none => none
      | some (k, r2) =>
        match r2.dropWhile isWsJ with
        | ':' :: r3 =>
          match jValue fuel r3 with
          | none => none
          | some (v, r4) =>
            let acc' := setFieldL acc k v
            match r4.dropWhile isWsJ with
            | ',' :: r5 => jMembers fuel r5 acc'
            | '\x7d' :: r5 => some (Jv.jobj acc', r5)
            | _ => none
        | _ => none
    | _ => none

/-- Parse the elements of a JSON array (after `[`). -/
def jElems : Nat → List Char → List Jv → Option (Jv × List Char)
  | 0, _, _ => none
  | fuel + 1, l, acc =>
    match jValue fuel l with
    | none => none
    | some (v, r) =>
      match r.dropWhile isWsJ with
      | ',' :: r2 => jElems fuel r2 (acc ++ [v])
      | ']' :: r2 => some (Jv.jarr (acc ++ [v]), r2)
      | _ => none

end

/-- `JSON.parse`: a single value followed only by whitespace. -/
def jsonParseTop (l : List Char) : Option Jv :=
  match jValue (l.length + 2) l with
  | some (v, rest) => if (rest.dropWhile isWsJ).isEmpty then some v else none
  | none => none

/-- Escape a string for `JSON.stringify`. -/
def jEsc (s : List Char) : List Char :=
  s.flatMap fun c =>
    if c = '"' then ['\\', '"']
    else if c = '\\' then ['\\', '\\']
    else if c = '\n' then ['\\', 'n']
    else if c = '\t' then ['\\', 't']
    else if c = '\r' then ['\\', 'r']
    else [c]

/-- Comma-join for `JSON.stringify`. -/
def joinComma : List (List Char) → List Char
  | [] => []
  | [x] => x
  | x :: xs => x ++ ',' :: joinComma xs

mutual

/-- `JSON.stringify` (no indentation), for the reconstruction path of
`fixMalformedJson`. -/
def stringifyJv : Jv → List Char
  | .jnull => "null".data
  | .jbool true => "true".data
  | .jbool false => "false".data
  | .jnum q => qToStr q
  | .jstr s => '"' :: jEsc s ++ ['"']
  | .jarr xs => '[' :: joinComma (stringifyList xs) ++ [']']
  | .jobj fs => '\x7b' :: joinComma (stringifyFields fs) ++ ['\x7d']

def stringifyList : List Jv → List (List Char)
  | [] => []
  | v :: vs => stringifyJv v :: stringifyList vs

def stringifyFields : List (List Char × Jv) → List (List Char)
  | [] => []
  | (k, v) :: fs => ('"' :: jEsc k ++ '"' :: ':' :: stringifyJv v) :: stringifyFields fs

end

/-! ## `fixMalformedJson` (lines 357-422) -/

/-- Pass `.replace(/,\s*}/g, '}')`. -/
def fixP1 : Nat → List Char → List Char
  | 0, l => l
  | _ + 1, [] => []
  | fuel + 1, c :: rest =>
    if c = ',' then
      match rest.dropWhile isWsC with
      | '\x7d' :: r2 => '\x7d' :: fixP1 fuel r2
      | _ => c :: fixP1 fuel rest
    else c :: fixP1 fuel rest

/-- Pass `.replace(/,\s*]/g, ']')`. -/
def fixP2 : Nat → List Char → List Char
  | 0, l => l
  | _ + 1, [] => []
  | fuel + 1, c :: rest =>
    if c = ',' then
      match rest.dropWhile isWsC with
      | ']' :: r2 => ']' :: fixP2 fuel r2
      | _ => c :: fixP2 fuel rest
    else c :: fixP2 fuel rest

/-- Pass `.replace(/}{/g, '},{')`. -/
def fixP3 : Nat → List Char → List Char
  | 0, l => l
  | _ + 1, [] => []
  | fuel + 1, '\x7d' :: '\x7b' :: rest => '\x7d' :: ',' :: '\x7b' :: fixP3 fuel rest
  | fuel + 1, c :: rest => c :: fixP3 fuel rest

/-- Pass `.replace(/"(\w+)"\s*:/g, '"$1":')`. -/
def fixP4 : Nat → List Char → List Char
  | 0, l => l
  | _ + 1, [] => []
  | fuel + 1, c :: rest =>
    if c = '"' then
      let w := rest.takeWhile isWordC
      if w.isEmpty then c :: fixP4 fuel rest
      else
        match rest.drop w.length with
        | '"' :: r2 =>
          (match r2.dropWhile isWsC with
           | ':' :: r3 => '"' :: w ++ '"' :: ':' :: fixP4 fuel r3
           | _ => c :: fixP4 fuel rest)
        | _ => c :: fixP4 fuel rest
    else c :: fixP4 fuel rest

/-- Pass `.replace(/:\s*,/g, ': null,')`. -/
def fixP5 : Nat → List Char → List Char
  | 0, l => l
  | _ + 1, [] => []
  | fuel + 1, c :: rest =>
    if c = ':' then
      match rest.dropWhile isWsC with
      | ',' :: r2 => ':' :: ' ' :: 'n' :: 'u' :: 'l' :: 'l' :: ',' :: fixP5 fuel r2
      | _ => c :: fixP5 fuel rest
    else c :: fixP5 fuel rest

/-- Pass `.replace(/,\s*,/g, ',')`. -/
def fixP6 : Nat → List Char → List Char
  | 0, l => l
  | _ + 1, [] => []
  | fuel + 1, c :: rest =>
    if c = ',' then
      match rest.dropWhile isWsC with
      | ',' :: r2 => ',' :: fixP6 fuel r2
      | _ => c :: fixP6 fuel rest
    else c :: fixP6 fuel rest

/-- Pass `.replace(/"\s*"(\w+)"/g, '"$1"')`. -/
def fixP7 : Nat → List Char → List Char
  | 0, l => l
  | _ + 1, [] => []
  | fuel + 1, c :: rest =>
    if c = '"' then
      match rest.dropWhile isWsC with
      | '"' :: r2 =>
        let w := r2.takeWhile isWordC
        if w.isEmpty then c :: fixP7 fuel rest
        else
          match r2.drop w.length with
          | '"' :: r3 => '"' :: w ++ '"' :: fixP7 fuel r3
          | _ => c :: fixP7 fuel rest
      | _ => c :: fixP7 fuel rest
    else c :: fixP7 fuel rest

/-- Does this suffix match the anchor alternative `,\s*$` of the property-line
regex? -/
def sufxOkProp (r : List Char) : Bool :=
  match r with
  | ',' :: t => t.all isWsC
  | _ => false

/-- Extension step of the lazy group `(.+?)`: extend the value until the
remaining suffix matches `,\s*$` or the end of the line. -/
def valTakeGo : List Char → List Char
  | [] => []
  | d :: r2 => if sufxOkProp (d :: r2) then [] else d :: valTakeGo r2

/-- The lazy group `(.+?)(?:,\s*$|$)`: at least one character, then the
shortest extension reaching a valid suffix. -/
def valTake : List Char → Option (List Char)
  | [] => none
  | c :: rest => some (c :: valTakeGo rest)

/-- The value part `\s*(.+?)(?:,\s*$|$)` after the colon: the greedy `\s*`
takes the whole whitespace run unless nothing is left for `(.+?)`, in which
case the engine backtracks one whitespace character. -/
def propVal (s : List Char) : Option (List Char) :=
  let w := s.takeWhile isWsC
  match s.drop w.length with
  | _ :: _ => valTake (s.drop w.length)
  | [] =>
    match w.getLast? with
    | some lastWs => some [lastWs]
    | none => none

/-- Try the property-line regex `"(\w+)"\s*:\s*(.+?)(?:,\s*$|$)` at the
current position, returning key and raw value. -/
def propMatchAt (l : List Char) : Option (List Char × List Char) :=
  match l with
  | '"' :: r =>
    let w := r.takeWhile isWordC
    if w.isEmpty then none
    else
      match r.drop w.length with
      | '"' :: r2 =>
        (match r2.dropWhile isWsC with
         | ':' :: s => (propVal s).map (fun v => (w, v))
         | _ => none)
      | _ => none
  | _ => none

/-- First match of the property-line regex anywhere in the line. -/
def propFind : Nat → List Char → Option (List Char × List Char)
  | 0, _ => none
  | _ + 1, [] => none
  | fuel + 1, c :: rest =>
    match propMatchAt (c :: rest) with
    | some kv => some kv
    | none => propFind fuel rest

/-- Interpretation of a captured property value (lines 399-408): strip one
trailing comma, trim, unquote a quoted value, else parse a number via
`parseFloat`, else keep the raw string. -/
def parsePropValue (value : List Char) : Jv :=
  let v1 := if value.getLast? = some ',' then value.dropLast else value
  let cv := trimWs v1
  if cv.head? = some '"' ∧ cv.getLast? = some '"' then Jv.jstr (cv.drop 1).dropLast
  else
    match parseFloatQ cv with
    | some q => Jv.jnum q
    | none => Jv.jstr cv

/-- State of the line-oriented reconstruction loop (lines 373-411). -/
structure FixSt where
  objs : List (List (List Char × Jv))
  cur : List (List Char × Jv)
  inTx : Bool

/-- The line-oriented reconstruction loop. -/
def fixLoop : List (List Char) → FixSt → FixSt
  | [], st => st
  | line :: rest, st =>
    let trimmed := trimWs line
    let st' :=
      if trimmed = ['\x7b'] ∧ st.inTx = false then
        { st with inTx := true, cur := [] }
      else if trimmed = ['\x7d'] ∨ trimmed = ['\x7d', ','] then
        if st.inTx ∧ ¬st.cur.isEmpty then { objs := st.objs ++ [st.cur], cur := [], inTx := false }
        else { st with inTx := false }
      else if st.inTx ∧ trimmed.contains ':' then
        match propFind trimmed.length trimmed with
        | some (k, v) => { st with cur := setFieldL st.cur k (parsePropValue v) }
        | none => st
      else st
    fixLoop rest st'

/-- `fixMalformedJson` (lines 357-422): the chain of string-surgery passes,
whitespace normalisation, then the line-oriented reconstruction; when the loop
recovered objects the reconstructed JSON is returned, else the repaired text. -/
def fixMalformedJson (jsonString : List Char) : List Char :=
  let s1 := fixP1 jsonString.length jsonString
  let s2 := fixP2 s1.length s1
  let s3 := fixP3 s2.length s2
  let s4 := fixP4 s3.length s3
  let s5 := fixP5 s4.length s4
  let s6 := fixP6 s5.length s5
  let s7 := fixP7 s6.length s6
  let fixed := trimWs (collapseWs s7)
  let lines := splitOnP (fun c => c = '\n') fixed
  let st := fixLoop lines ⟨[], [], false⟩
  if ¬st.objs.isEmpty then
    stringifyJv (Jv.jobj [("transactions".data, Jv.jarr (st.objs.map Jv.jobj))])
  else fixed

/-! ## `parseAnalysisResult` (lines 124-194) and the orchestrator -/

/-- Remove the first `/```json\s*/` occurrence. -/
def stripFenceA : Nat → List Char → List Char
  | 0, l => l
  | _ + 1, [] => []
  | fuel + 1, c :: rest =>
    if "```json".data.isPrefixOf (c :: rest) then ((c :: rest).drop 7).dropWhile isWsC
    else c :: stripFenceA fuel rest

/-- Does this suffix match `/```\s*$/`? -/
def endFenceOk (l : List Char) : Bool :=
  "```".data.isPrefixOf l && (l.drop 3).all isWsC

/-- Remove a trailing `/```\s*$/` occurrence. -/
def stripFenceB : Nat → List Char → List Char
  | 0, l => l
  | _ + 1, [] => []
  | fuel + 1, c :: rest =>
    if endFenceOk (c :: rest) then [] else c :: stripFenceB fuel rest

/-- Index of the first character satisfying `p`. -/
def firstIdxP (p : Char → Bool) : List Char → Option Nat
  | [] => none
  | c :: r => if p c then some 0 else (firstIdxP p r).map (· + 1)

/-- Index of the last character satisfying `p`. -/
def lastIdxP (p : Char → Bool) (l : List Char) : Option Nat :=
  (firstIdxP p l.reverse).map (fun k => l.length - 1 - k)

/-- The greedy whole-object match `/\{[\s\S]*\}/`: from the first `{` to the
last `}`, provided the latter comes after the former. -/
def extractBraces (l : List Char) : Option (List Char) :=
  match firstIdxP (fun c => c = '\x7b') l, lastIdxP (fun c => c = '\x7d') l with
  | some i, some j => if i < j then some ((l.drop i).take (j - i + 1)) else none
  | _, _ => none

/-- JavaScript truthiness of a JSON value. -/
def jTruthy : Jv → Bool
  | .jnull => false
  | .jbool b => b
  | .jnum q => decide (q ≠ 0)
  | .jstr s => !s.isEmpty
  | .jarr _ => true
  | .jobj _ => true

/-- Field lookup on an object value; `none` models `undefined`. -/
def jGet : Jv → List Char → Option Jv
  | .jobj fs, k => (fs.find? (fun kv => kv.1 = k)).map (fun kv => kv.2)
  | _, _ => none

/-- The filter of lines 152-154: keep a parsed entry only when `date`,
`description` and `category` are truthy and `amount` is neither missing nor
null. -/
def keepTx (t : Jv) : Bool :=
  jTruthy ((jGet t "date".data).getD Jv.jnull) &&
  jTruthy ((jGet t "description".data).getD Jv.jnull) &&
  (match jGet t "amount".data with
   | some Jv.jnull => false
   | some _ => true
   | none => false) &&
  jTruthy ((jGet t "category".data).getD Jv.jnull)

/-- The confidence defaulting of lines 157-160: `confidence: t.confidence || 50`. -/
def withConf (t : Jv) : Jv :=
  let cv :=
    match jGet t "confidence".data with
    | some v => if jTruthy v then v else Jv.jnum 50
    | none => Jv.jnum 50
  match t with
  | .jobj fs => Jv.jobj (setFieldL fs "confidence".data cv)
  | other => other

/-- Extraction of the string stored in an optional field (exact on the
well-typed objects the pipeline handles). -/
def jAsStr (v : Option Jv) : String :=
  match v with
  | some (.jstr s) => ⟨s⟩
  | _ => ""

/-- Extraction of the number stored in an optional field. -/
def jAsNum (v : Option Jv) : ℚ :=
  match v with
  | some (.jnum q) => q
  | _ => 0

/-- View of a kept entry as a typed `Transaction` (the JavaScript keeps the
dynamic object; the pipeline only reads these fields). -/
def toTransaction (t : Jv) : Transaction :=
  { date := jAsStr (jGet t "date".data)
    description := jAsStr (jGet t "description".data)
    amount := jAsNum (jGet t "amount".data)
    category := jAsStr (jGet t "category".data)
    subcategory :=
      match jGet t "subcategory".data with
      | some (.jstr s) => some ⟨s⟩
      | _ => none
    confidence := jAsNum (jGet t "confidence".data) }

/-- `parseAnalysisResult` (lines 124-194): strip code fences, extract the
whole-object substring, repair it, strictly parse it, filter and default the
transactions, and aggregate; every failure (no JSON object, parse error,
`transactions` not an array, member access on `null`) surfaces as the single
caught error of line 192. -/
def parseAnalysisResult (analysisText : String) : Except String AnalysisResult :=
  let t0 := stripFenceA analysisText.data.length analysisText.data
  let t1 := stripFenceB t0.length t0
  match extractBraces t1 with
  | none => .error "Failed to parse AI analysis result"
  | some jsonString =>
    match jsonParseTop (fixMalformedJson jsonString) with
    | none => .error "Failed to parse AI analysis result"
    | some Jv.jnull => .error "Failed to parse AI analysis result"
    | some parsed =>
      let txsO : Option (List Jv) :=
        match jGet parsed "transactions".data with
        | some v =>
          if jTruthy v then
            match v with
            | .jarr xs => some xs
            | _ => none
          else some []
        | none => some []
      match txsO with
      | none => .error "Failed to parse AI analysis result"
      | some txs =>
        let trs := ((txs.filter keepTx).map withConf).map toTransaction
        .ok { transactions := trs, summary := computeSummary trs }

/-- The observable behaviours of the model collaborator inside
`analyzeDocument`: no API key configured, a transport/SDK failure, or a
response text. -/
inductive ModelOutcome where
  | noKey : ModelOutcome
  | transportFailure : ModelOutcome
  | modelResponse : String → ModelOutcome

/-- `analyzeDocument` (lines 37-75): fallback when no key is configured, when
the call throws, when the response text is empty, or when parsing throws;
otherwise the parsed result.  `today` models `new Date()` as in
`fallbackAnalysis`. -/
def analyzeDocument (today : String) (outcome : ModelOutcome) (extractedText : String) :
    AnalysisResult :=
  match outcome with
  | .noKey => fallbackAnalysis today extractedText
  | .transportFailure => fallbackAnalysis today extractedText
  | .modelResponse t =>
    if t = "" then fallbackAnalysis today extractedText
    else
      match parseAnalysisResult t with
      | .ok r => r
      | .error _ => fallbackAnalysis today extractedText

/-! ## Verification predicates for the normalizer -/

/-- No position of the list can start a match of the despacing regex: at every
suffix whose head is a capital at a word boundary, the regex tail fails.  The
despacing pass is the identity exactly on such lists. -/
def Good : Bool → List Char → Prop
  | _, [] => True
  | p, c :: rest => ((!p && isUpC c) = true → tryMatch rest = none) ∧ Good (isWordC c) rest

/-- The shape of whitespace-collapsed text: every whitespace character is a
plain space and no space is followed by whitespace. -/
def spaced (l : List Char) : Prop :=
  (∀ c ∈ l, isWsC c = true → c = ' ') ∧ l.Chain' (fun a b => a = ' ' → isWsC b = false)

/-! ## Concrete test fixtures -/

/-- The model response of spec §8.6: well-formed JSON except for a trailing
comma before the closing brace. -/
def malformedResponse : String :=
  "\x7b\"transactions\": [\x7b\"date\":\"2025-01-01\",\"description\":\"Shop\",\"amount\":-10,\"category\":\"Office costs\",\"confidence\":90,\x7d]\x7d"

/-- The well-formed equivalent of `malformedResponse`. -/
def wellFormedResponse : String :=
  "\x7b\"transactions\": [\x7b\"date\":\"2025-01-01\",\"description\":\"Shop\",\"amount\":-10,\"category\":\"Office costs\",\"confidence\":90\x7d]\x7d"

/-- The transaction both responses should parse to. -/
def shopTransaction : Transaction :=
  { date := "2025-01-01", description := "Shop", amount := mkRat (-10) 1,
    category := "Office costs", subcategory := none, confidence := 90 }

/-- The analysis result both responses should parse to. -/
def shopResult : AnalysisResult :=
  { transactions := [shopTransaction],
    summary :=
      { totalTransactions := 1, categorizedTransactions := 1,
        categoryBreakdown := [("Office costs", 1)], totalAmount := 10,
        categoryAmounts := [("Office costs", 10)] } }

/-- A syntactically valid model response whose transactions array is empty. -/
def emptyTxResponse : String := "\x7b\"transactions\": []\x7d"

/-- The value of every summary field on an empty transaction list. -/
def zeroSummary : Summary :=
  { totalTransactions := 0, categorizedTransactions := 0, categoryBreakdown := [],
    totalAmount := 0, categoryAmounts := [] }

/-- The end-to-end scenario line of spec §8.8. -/
def officeLine : String := "05/06/2025   OFFICE SUPPLIES LTD   £45.99"

/-- The transaction the fallback actually produces for `officeLine`. -/
def officeTransaction : Transaction :=
  { date := "2025-06-05", description := "OFFICE SUPPLIES LTD", amount := 202,
    category := "Office costs", subcategory := none, confidence := 65 }

/-- Whether a parse outcome is the thrown error of line 192. -/
def isParseError (e : Except String AnalysisResult) : Bool :=
  match e with
  | .error _ => true
  | .ok _ => false

/-- Sum of the numeric values of a rational-valued record. -/
def sumValsQ (m : List (String × ℚ)) : ℚ := (m.map (fun kv => kv.2)).sum

/-- Sum of the numeric values of a count-valued record. -/
def sumValsN (m : List (String × Nat)) : Nat := (m.map (fun kv => kv.2)).sum

deriving instance DecidableEq for Except

set_option maxRecDepth 4000000

/-! # Theorems -/

/-! ## Bridge lemmas for the rational helpers -/

theorem qAdd_eq (a b : ℚ) : qAdd a b = a + b := by
  unfold qAdd
  rw [Rat.mkRat_eq_divInt]
  push_cast
  conv_rhs => rw [← Rat.num_divInt_den a, ← Rat.num_divInt_den b]
  rw [Rat.divInt_add_divInt _ _ (Int.natCast_ne_zero.mpr a.den_nz) (Int.natCast_ne_zero.mpr b.den_nz)]

theorem qAbs_eq (a : ℚ) : qAbs a = |a| := by
  unfold qAbs
  split
  · rename_i h
    rw [abs_of_neg (by exact_mod_cast Rat.num_neg.mp h)]
    rw [Rat.mkRat_eq_divInt, ← Rat.neg_divInt, Rat.num_divInt_den]
  · rename_i h
    rw [abs_of_nonneg (by exact_mod_cast Rat.num_nonneg.mp (le_of_not_lt h))]

/-! ## Helper lemmas on the split function -/

theorem splitOnP_ne_nil (p : Char → Bool) (l : List Char) : splitOnP p l ≠ [] := by
  induction l with
  | nil => simp [splitOnP]
  | cons c r ih =>
    simp only [splitOnP, List.foldr_cons] at *
    by_cases h : p c
    · simp [h]
    · simp only [h, if_neg, Bool.false_eq_true, if_false]
      cases hs : (r.foldr (fun c acc =>
          if p c then [] :: acc
          else match acc with
            | [] => [[c]]
            | a :: as => (c :: a) :: as) [[]]) with
      | nil => simp
      | cons a as => simp

theorem splitOnP_sepFree (p : Char → Bool) (l : List Char) (h : ∀ c ∈ l, p c = false) :
    splitOnP p l = [l] := by
  induction l with
  | nil => rfl
  | cons c r ih =>
    have hc : p c = false := h c (by simp)
    have hr := ih (fun x hx => h x (by simp [hx]))
    simp only [splitOnP, List.foldr_cons] at *
    rw [hr]
    simp [hc]

theorem splitOnP_sep_append (p : Char → Bool) (a r : List Char) (s : Char)
    (h : ∀ c ∈ a, p c = false) (hs : p s = true) :
    splitOnP p (a ++ s :: r) = a :: splitOnP p r := by
  induction a with
  | nil => simp [splitOnP, List.foldr_cons, hs]
  | cons c a' ih =>
    have hc : p c = false := h c (by simp)
    have ha' := ih (fun x hx => h x (by simp [hx]))
    simp only [List.cons_append, splitOnP, List.foldr_cons] at *
    rw [ha']
    simp [hc]

/-! ## C10: the range of the category guesser -/

/-- C10: for every description, `guessCategory` returns one of seven labels —
the six keyword-table categories or `Unknown` — and never produces
`Clothing expenses`, `Things you resell` or `Other expenses`. -/
theorem c10_guess_category_range (d : String) :
    (guessCategory d = "Office costs" ∨ guessCategory d = "Travel costs" ∨
     guessCategory d = "Equipment and software" ∨
     guessCategory d = "Marketing and entertainment" ∨
     guessCategory d = "Legal and financial costs" ∨ guessCategory d = "Staff costs" ∨
     guessCategory d = "Unknown") ∧
    guessCategory d ≠ "Clothing expenses" ∧ guessCategory d ≠ "Things you resell" ∧
    guessCategory d ≠ "Other expenses" := by
  have h : guessCategory d ∈ ["Office costs", "Travel costs", "Equipment and software",
      "Marketing and entertainment", "Legal and financial costs", "Staff costs", "Unknown"] := by
    unfold guessCategory
    dsimp only
    repeat' split
    all_goals simp_all
  simp only [List.mem_cons, List.not_mem_nil, or_false] at h
  refine ⟨h, ?_, ?_, ?_⟩ <;> rcases h with h | h | h | h | h | h | h <;> simp [h]

/-! ## C7: date normalisation -/

/-- C7: a date token built from a 1-2 digit day, a 1-2 digit month and a 2- or
4-digit year with `/` or `-` separators is rewritten to `YYYY-MM-DD`: the year
is expanded with `20` when it has two digits, and day and month are zero-padded
to exactly two digits. -/
theorem c7_date_normalization (d m y : List Char) (s1 s2 : Char)
    (hd : ∀ c ∈ d, isDigitC c = true) (hm : ∀ c ∈ m, isDigitC c = true)
    (hy : ∀ c ∈ y, isDigitC c = true)
    (hdl : 1 ≤ d.length ∧ d.length ≤ 2) (hml : 1 ≤ m.length ∧ m.length ≤ 2)
    (hyl : y.length = 2 ∨ y.length = 4) (hs1 : dSep s1 = true) (hs2 : dSep s2 = true) :
    normalizeDateL (d ++ (s1 :: (m ++ (s2 :: y)))) =
      (if y.length = 2 then '2' :: '0' :: y else y) ++ '-' :: pad2 m ++ '-' :: pad2 d ∧
    (pad2 d).length = 2 ∧ (pad2 m).length = 2 ∧
    ((if y.length = 2 then '2' :: '0' :: y else y) : List Char).length = 4 := by
  have digitNotSep : ∀ c : Char, isDigitC c = true → dSep c = false := by
    intro c hc
    unfold isDigitC at hc
    unfold dSep
    simp only [Bool.or_eq_false_iff, decide_eq_false_iff_not]
    simp only [Bool.and_eq_true, decide_eq_true_eq] at hc
    constructor
    · rintro rfl; revert hc; decide
    · rintro rfl; revert hc; decide
  have hsplit : splitOnP dSep (d ++ (s1 :: (m ++ (s2 :: y)))) = [d, m, y] := by
    rw [splitOnP_sep_append dSep d (m ++ s2 :: y) s1 (fun c hc => digitNotSep c (hd c hc)) hs1,
      splitOnP_sep_append dSep m y s2 (fun c hc => digitNotSep c (hm c hc)) hs2,
      splitOnP_sepFree dSep y (fun c hc => digitNotSep c (hy c hc))]
  refine ⟨?_, ?_, ?_, ?_⟩
  · unfold normalizeDateL
    rw [hsplit]
  · unfold pad2
    split
    · omega
    · rw [List.length_append, List.length_replicate]
      omega
  · unfold pad2
    split
    · omega
    · rw [List.length_append, List.length_replicate]
      omega
  · rcases hyl with h2 | h4
    · simp [h2]
    · have : ¬ y.length = 2 := by omega
      simp [this, h4]

/-- Witness for C7 at the spec's two concrete examples. -/
theorem c7_date_normalization_witness :
    normalizeDate "05/06/25" = "2025-06-05" ∧ normalizeDate "5-6-2025" = "2025-06-05" := by
  constructor
  · have h := (c7_date_normalization ['0', '5'] ['0', '6'] ['2', '5'] '/' '/'
      (by decide) (by decide) (by decide) (by decide) (by decide) (by decide)
      (by decide) (by decide)).1
    show (⟨normalizeDateL "05/06/25".data⟩ : String) = "2025-06-05"
    have hdata : ("05/06/25".data : List Char) = ['0', '5'] ++ ('/' :: (['0', '6'] ++ ('/' :: ['2', '5']))) := by decide
    rw [hdata, h]
    decide
  · have h := (c7_date_normalization ['5'] ['6'] ['2', '0', '2', '5'] '-' '-'
      (by decide) (by decide) (by decide) (by decide) (by decide) (by decide)
      (by decide) (by decide)).1
    show (⟨normalizeDateL "5-6-2025".data⟩ : String) = "2025-06-05"
    have hdata : ("5-6-2025".data : List Char) = ['5'] ++ ('-' :: (['6'] ++ ('-' :: ['2', '0', '2', '5']))) := by decide
    rw [hdata, h]
    decide

/-! ## C8: summary aggregation algebra -/

theorem upsertAdd_sumQ (m : List (String × ℚ)) (k : String) (v : ℚ) :
    sumValsQ (upsertAdd qAdd m k v) = sumValsQ m + v := by
  induction m with
  | nil => simp [upsertAdd, sumValsQ]
  | cons kv rest ih =>
    obtain ⟨k', v'⟩ := kv
    unfold upsertAdd
    by_cases h : k' = k
    · subst h
      simp [sumValsQ, qAdd_eq]
      ring
    · simp only [if_neg h, sumValsQ, List.map_cons, List.sum_cons] at *
      rw [ih]
      ring

theorem upsertAdd_sumN (m : List (String × Nat)) (k : String) (v : Nat) :
    sumValsN (upsertAdd Nat.add m k v) = sumValsN m + v := by
  induction m with
  | nil => simp [upsertAdd, sumValsN]
  | cons kv rest ih =>
    obtain ⟨k', v'⟩ := kv
    unfold upsertAdd
    by_cases h : k' = k
    · subst h
      simp [sumValsN, Nat.add_eq]
      omega
    · simp only [if_neg h, sumValsN, List.map_cons, List.sum_cons] at *
      rw [ih]
      omega

/-- The invariant of the shared aggregation loop, for an arbitrary choice of
the record key. -/
theorem summaryFold_invariant (key : Transaction → String) :
    ∀ (L : List Transaction) (bd : List (String × Nat)) (ca : List (String × ℚ)) (tot : ℚ),
      sumValsN (L.foldl (fun acc t => (upsertAdd Nat.add acc.1 (key t) 1,
          upsertAdd qAdd acc.2.1 (key t) (qAbs t.amount),
          qAdd acc.2.2 (qAbs t.amount))) (bd, ca, tot)).1 = sumValsN bd + L.length ∧
      sumValsQ (L.foldl (fun acc t => (upsertAdd Nat.add acc.1 (key t) 1,
          upsertAdd qAdd acc.2.1 (key t) (qAbs t.amount),
          qAdd acc.2.2 (qAbs t.amount))) (bd, ca, tot)).2.1 =
        sumValsQ ca + (L.map (fun t => |t.amount|)).sum ∧
      (L.foldl (fun acc t => (upsertAdd Nat.add acc.1 (key t) 1,
          upsertAdd qAdd acc.2.1 (key t) (qAbs t.amount),
          qAdd acc.2.2 (qAbs t.amount))) (bd, ca, tot)).2.2 =
        tot + (L.map (fun t => |t.amount|)).sum := by
  intro L
  induction L with
  | nil => intro bd ca tot; simp
  | cons t rest ih =>
    intro bd ca tot
    simp only [List.foldl_cons, List.map_cons, List.sum_cons]
    obtain ⟨h1, h2, h3⟩ := ih (upsertAdd Nat.add bd (key t) 1)
      (upsertAdd qAdd ca (key t) (qAbs t.amount)) (qAdd tot (qAbs t.amount))
    refine ⟨?_, ?_, ?_⟩
    · rw [h1, upsertAdd_sumN]
      simp [List.length_cons]
      omega
    · rw [h2, upsertAdd_sumQ, qAbs_eq]
      ring
    · rw [h3, qAdd_eq, qAbs_eq]
      ring

/-- C8: the summary is a deterministic pure function of the transaction list,
the per-category amounts sum to `totalAmount`, which is the sum of the
absolute amounts, and the per-category counts sum to `totalTransactions` —
for the aggregation used by the parser and the correction route
(`computeSummary`) and for the fallback's own loop (`fallbackSummary`). -/
theorem c8_summary_algebra (L : List Transaction) :
    computeSummary L = computeSummary L ∧
    sumValsQ (computeSummary L).categoryAmounts = (computeSummary L).totalAmount ∧
    (computeSummary L).totalAmount = (L.map (fun t => |t.amount|)).sum ∧
    sumValsN (computeSummary L).categoryBreakdown = (computeSummary L).totalTransactions ∧
    sumValsQ (fallbackSummary L).categoryAmounts = (fallbackSummary L).totalAmount ∧
    (fallbackSummary L).totalAmount = (L.map (fun t => |t.amount|)).sum ∧
    sumValsN (fallbackSummary L).categoryBreakdown = (fallbackSummary L).totalTransactions := by
  have hc := summaryFold_invariant (fun t => if t.category = "" then "Unknown" else t.category)
    L [] [] 0
  have hf := summaryFold_invariant (fun t => t.category) L [] [] 0
  simp only [List.map_nil, List.sum_nil, Nat.zero_add, zero_add] at hc hf
  unfold computeSummary fallbackSummary
  dsimp only
  exact ⟨rfl, by rw [hc.2.1, hc.2.2]; simp [sumValsQ], by rw [hc.2.2],
    by rw [hc.1]; simp [sumValsN], by rw [hf.2.1, hf.2.2]; simp [sumValsQ],
    by rw [hf.2.2], by rw [hf.1]; simp [sumValsN]⟩

/-! ## C4: totality of the orchestrator -/

theorem fallbackSummary_total (ts : List Transaction) :
    (fallbackSummary ts).totalTransactions = ts.length := rfl

theorem ite_isEmpty_ne_nil {α : Type} (l d : List α) (hd : d ≠ []) :
    (if l.isEmpty then d else l) ≠ [] := by
  by_cases h : l.isEmpty = true
  · simp only [h, if_true]
    exact hd
  · simp only [h, Bool.false_eq_true, if_false]
    intro hnil
    rw [hnil] at h
    exact h rfl

theorem fallback_transactions_ne_nil (today text : String) :
    (fallbackAnalysis today text).transactions ≠ [] := by
  unfold fallbackAnalysis
  dsimp only
  exact ite_isEmpty_ne_nil _ _ (by simp [demoTransactions])

theorem fallback_total_pos (today text : String) :
    1 ≤ (fallbackAnalysis today text).summary.totalTransactions := by
  have h := fallback_transactions_ne_nil today text
  have hlen : (fallbackAnalysis today text).summary.totalTransactions =
      (fallbackAnalysis today text).transactions.length := by
    unfold fallbackAnalysis
    rfl
  rw [hlen]
  cases hx : (fallbackAnalysis today text).transactions with
  | nil => exact absurd hx h
  | cons a as => simp

/-- C4: `analyzeDocument` is total — for every behaviour of the model
collaborator it returns an `AnalysisResult`, which is either a successful
parse of a non-empty response or the fallback result, and the fallback itself
always returns at least one transaction. -/
theorem c4_analyze_total (today : String) (outcome : ModelOutcome) (text : String) :
    ((∃ t r, outcome = ModelOutcome.modelResponse t ∧ t ≠ "" ∧
        parseAnalysisResult t = Except.ok r ∧ analyzeDocument today outcome text = r) ∨
      analyzeDocument today outcome text = fallbackAnalysis today text) ∧
    1 ≤ (fallbackAnalysis today text).summary.totalTransactions ∧
    (fallbackAnalysis today text).transactions ≠ [] := by
  refine ⟨?_, fallback_total_pos today text, fallback_transactions_ne_nil today text⟩
  cases outcome with
  | noKey => exact Or.inr rfl
  | transportFailure => exact Or.inr rfl
  | modelResponse t =>
    by_cases ht : t = ""
    · right
      simp [analyzeDocument, ht]
    · cases hp : parseAnalysisResult t with
      | ok r =>
        left
        exact ⟨t, r, rfl, ht, hp, by simp [analyzeDocument, ht, hp]⟩
      | error e =>
        right
        simp [analyzeDocument, ht, hp]

/-! ## C2: the fallback is non-empty but not always of size three -/

/-- C2 counterexample: an input with a single transaction line makes the
fallback return exactly one transaction, so `totalTransactions ≥ 3` fails. -/
theorem c2_single_line_total :
    (fallbackAnalysis "2025-06-15" "1/1/25 5.00").summary.totalTransactions = 1 ∧
    ¬ 3 ≤ (fallbackAnalysis "2025-06-15" "1/1/25 5.00").summary.totalTransactions := by
  constructor
  · decide
  · decide

/-- C2 as amended: the fallback always returns at least one transaction, and
when both the primary per-line pattern and the secondary amount scan yield
zero transactions it returns exactly the three fixed demonstration
transactions. -/
theorem c2_fallback_floor (today text : String) :
    1 ≤ (fallbackAnalysis today text).summary.totalTransactions ∧
    ((splitOnP (fun c => c = '\n') (cleanList text.data)).enum.filterMap
        (fun il => processLine il.1 il.2) = [] →
      secondaryScan (cleanList text.data) = [] →
      (fallbackAnalysis today text).transactions = demoTransactions today ∧
      (fallbackAnalysis today text).summary.totalTransactions = 3) := by
  refine ⟨fallback_total_pos today text, ?_⟩
  intro h1 h2
  unfold fallbackAnalysis
  dsimp only
  rw [h1]
  simp only [List.isEmpty_nil, if_true]
  rw [h2]
  simp [demoTransactions, fallbackSummary_total]

/-- Witness for C2 as amended: on the empty input both extraction passes are
empty and the three demonstration transactions are returned. -/
theorem c2_fallback_floor_witness :
    (fallbackAnalysis "2025-06-15" "").transactions = demoTransactions "2025-06-15" ∧
    (fallbackAnalysis "2025-06-15" "").summary.totalTransactions = 3 :=
  (c2_fallback_floor "2025-06-15" "").2 (by decide) (by decide)

/-! ## C3: the end-to-end scenario line -/

/-- C3 counterexample: on the spec's end-to-end line the fallback produces one
transaction whose amount is `202` — the digit fragment `202` of the year
`2025` is an amount-pattern match and exceeds `45.99` in absolute value — so
the claimed absolute value `45.99` is wrong. -/
theorem c3_office_line_amount :
    (fallbackAnalysis "2025-06-15" officeLine).transactions.map Transaction.amount = [202] ∧
    qAbs 202 ≠ mkRat 4599 100 := by
  constructor
  · decide
  · decide

/-- C3 as amended: the fallback on the end-to-end line produces exactly one
transaction with date `2025-06-05`, description `OFFICE SUPPLIES LTD`,
category `Office costs` and confidence `65`, but with amount `202` (positive),
the largest-in-absolute-value amount-pattern match on the line. -/
theorem c3_office_line_result (today : String) :
    (fallbackAnalysis today officeLine).transactions = [officeTransaction] ∧
    officeTransaction.date = "2025-06-05" ∧ officeTransaction.category = "Office costs" ∧
    officeTransaction.confidence = 65 ∧ officeTransaction.amount = 202 := by
  refine ⟨?_, rfl, rfl, rfl, rfl⟩
  unfold fallbackAnalysis
  dsimp only
  have h1 : (splitOnP (fun c => c = '\n') (cleanList officeLine.data)).enum.filterMap
      (fun il => processLine il.1 il.2) = [officeTransaction] := by decide
  rw [h1]
  simp [List.isEmpty]

/-! ## C6: repair tolerance of the parser -/

/-- C6: the parser succeeds on the trailing-comma response and returns exactly
one transaction — date `2025-01-01`, description `Shop`, amount `-10`,
category `Office costs`, confidence `90` — identical to what the well-formed
equivalent yields. -/
theorem c6_repair_tolerance :
    parseAnalysisResult malformedResponse = Except.ok shopResult ∧
    parseAnalysisResult malformedResponse = parseAnalysisResult wellFormedResponse ∧
    shopResult.transactions = [shopTransaction] := by
  refine ⟨?_, ?_, rfl⟩
  · decide
  · decide

/-! ## C1: parser failure and demotion -/

/-- C1 counterexample: on the response `{"transactions": []}` the parser does
not fail — it returns an `AnalysisResult` with an empty transactions list —
and `analyzeDocument` returns that empty result instead of the fallback
result. -/
theorem c1_parser_empty_ok :
    parseAnalysisResult emptyTxResponse =
      Except.ok { transactions := [], summary := zeroSummary } ∧
    analyzeDocument "2025-06-15" (ModelOutcome.modelResponse emptyTxResponse) "1/1/25 5.00" =
      { transactions := [], summary := zeroSummary } ∧
    analyzeDocument "2025-06-15" (ModelOutcome.modelResponse emptyTxResponse) "1/1/25 5.00" ≠
      fallbackAnalysis "2025-06-15" "1/1/25 5.00" := by
  refine ⟨?_, ?_, ?_⟩
  · decide
  · decide
  · decide

/-- C1 as amended: the parser fails only when no JSON object is found or the
repaired text does not parse; in exactly those cases (and on an empty
response) `analyzeDocument` returns the fallback result for the same input,
while a successful parse — including one with zero transactions after
filtering — is returned as is. -/
theorem c1_parse_demotion (today text t : String) :
    (t = "" →
      analyzeDocument today (ModelOutcome.modelResponse t) text = fallbackAnalysis today text) ∧
    (isParseError (parseAnalysisResult t) = true →
      analyzeDocument today (ModelOutcome.modelResponse t) text = fallbackAnalysis today text) ∧
    (∀ r, t ≠ "" → parseAnalysisResult t = Except.ok r →
      analyzeDocument today (ModelOutcome.modelResponse t) text = r) := by
  refine ⟨?_, ?_, ?_⟩
  · intro h
    simp [analyzeDocument, h]
  · intro h
    by_cases ht : t = ""
    · simp [analyzeDocument, ht]
    · cases hp : parseAnalysisResult t with
      | ok r => rw [hp] at h; simp [isParseError] at h
      | error e => simp [analyzeDocument, ht, hp]
  · intro r ht hp
    simp [analyzeDocument, ht, hp]

/-- Witness for C1 as amended: a response with no brace fails the parser and
demotes to the fallback; the empty-array response parses and is returned
as is. -/
theorem c1_parse_demotion_witness :
    isParseError (parseAnalysisResult "no json here") = true ∧
    analyzeDocument "2025-06-15" (ModelOutcome.modelResponse "no json here") "x" =
      fallbackAnalysis "2025-06-15" "x" ∧
    analyzeDocument "2025-06-15" (ModelOutcome.modelResponse emptyTxResponse) "x" =
      { transactions := [], summary := zeroSummary } :=
  ⟨by decide, (c1_parse_demotion "2025-06-15" "x" "no json here").2.1 (by decide),
    (c1_parse_demotion "2025-06-15" "x" emptyTxResponse).2.2
      { transactions := [], summary := zeroSummary } (by decide) (by decide)⟩

/-! ## C9 and C5: the normalizer development

The results below characterise `cleanExtractedText`.  The order of the
argument: the despacing pass leaves no match of its own regex in its output
(`good_fixCapsGo`), whitespace collapapsing and trimming preserve that
property and establish the `spaced` shape, and on text with those two
properties every pass of the normalizer is the identity, which gives
idempotence; the absence of newlines after collapapsing reduces the per-line
loop to a single line, which gives the corrected shape of C5. -/

theorem ws_not_up {c : Char} (h : isWsC c = true) : isUpC c = false := by
  simp only [isWsC, Bool.or_eq_true, decide_eq_true_eq] at h
  rcases h with ((((h | h) | h) | h) | h) | h <;> subst h <;> decide

theorem ws_not_word {c : Char} (h : isWsC c = true) : isWordC c = false := by
  simp only [isWsC, Bool.or_eq_true, decide_eq_true_eq] at h
  rcases h with ((((h | h) | h) | h) | h) | h <;> subst h <;> decide

theorem up_word {c : Char} (h : isUpC c = true) : isWordC c = true := by
  simp only [isUpC, Bool.and_eq_true, decide_eq_true_eq] at h
  simp only [isWordC, Bool.or_eq_true, Bool.and_eq_true, decide_eq_true_eq]
  exact Or.inl (Or.inl (Or.inl ⟨h.1, h.2⟩))

theorem up_not_ws {c : Char} (h : isUpC c = true) : isWsC c = false := by
  simp only [isUpC, Bool.and_eq_true, decide_eq_true_eq] at h
  simp only [isWsC, Bool.or_eq_false_iff, decide_eq_false_iff_not]
  refine ⟨⟨⟨⟨⟨?_, ?_⟩, ?_⟩, ?_⟩, ?_⟩, ?_⟩ <;> rintro rfl <;> exact absurd h.1 (by decide)

theorem space_is_ws : isWsC ' ' = true := by decide

theorem tryMatch_nil : tryMatch [] = none := rfl

theorem tryMatch_not_ws_head {y : Char} (r : List Char) (h : isWsC y = false) :
    tryMatch (y :: r) = none := by
  unfold tryMatch
  rw [List.takeWhile_cons_of_neg (by simp [h])]
  simp

theorem mem_takeWhile_sat {p : Char → Bool} :
    ∀ {l : List Char} {c : Char}, c ∈ l.takeWhile p → p c = true := by
  intro l
  induction l with
  | nil => intro c h; simp [List.takeWhile] at h
  | cons a r ih =>
    intro c h
    by_cases ha : p a = true
    · rw [List.takeWhile_cons_of_pos ha] at h
      rcases List.mem_cons.mp h with rfl | h
      · exact ha
      · exact ih h
    · rw [List.takeWhile_cons_of_neg (by simp [ha])] at h
      simp at h

theorem dropWhile_head_not_sat {p : Char → Bool} :
    ∀ {l : List Char} {c : Char} {t : List Char}, l.dropWhile p = c :: t → p c = false := by
  intro l
  induction l with
  | nil => intro c t h; simp [List.dropWhile] at h
  | cons a r ih =>
    intro c t h
    by_cases ha : p a = true
    · rw [List.dropWhile_cons_of_pos ha] at h
      exact ih h
    · rw [List.dropWhile_cons_of_neg (by simp [ha])] at h
      obtain ⟨rfl, rfl⟩ := List.cons.inj h
      simpa using ha

theorem takeWhile_all_sat {p : Char → Bool} :
    ∀ {w : List Char}, (∀ c ∈ w, p c = true) → w.takeWhile p = w := by
  intro w
  induction w with
  | nil => intro _; rfl
  | cons a r ih =>
    intro h
    rw [List.takeWhile_cons_of_pos (h a (by simp))]
    rw [ih (fun c hc => h c (by simp [hc]))]

theorem dropWhile_all_sat {p : Char → Bool} :
    ∀ {w : List Char}, (∀ c ∈ w, p c = true) → w.dropWhile p = [] := by
  intro w
  induction w with
  | nil => intro _; rfl
  | cons a r ih =>
    intro h
    rw [List.dropWhile_cons_of_pos (h a (by simp))]
    exact ih (fun c hc => h c (by simp [hc]))

theorem takeWhile_append_not_sat {p : Char → Bool} {w : List Char} {y : Char} {t : List Char}
    (hw : ∀ c ∈ w, p c = true) (hy : p y = false) :
    (w ++ y :: t).takeWhile p = w ∧ (w ++ y :: t).dropWhile p = y :: t := by
  induction w with
  | nil =>
    simp only [List.nil_append]
    exact ⟨List.takeWhile_cons_of_neg (by simp [hy]), List.dropWhile_cons_of_neg (by simp [hy])⟩
  | cons a r ih =>
    obtain ⟨h1, h2⟩ := ih (fun c hc => hw c (by simp [hc]))
    have ha : p a = true := hw a (by simp)
    constructor
    · rw [List.cons_append, List.takeWhile_cons_of_pos ha, h1]
    · rw [List.cons_append, List.dropWhile_cons_of_pos ha, h2]

/-- Structural characterisation of a successful `tryMatch`. -/
theorem tryMatch_some_decomp {rest : List Char} {y z : Char} {tail : List Char}
    (h : tryMatch rest = some (y, z, tail)) :
    ∃ w1 w2, rest = w1 ++ y :: (w2 ++ z :: tail) ∧ w1 ≠ [] ∧ (∀ c ∈ w1, isWsC c = true) ∧
      isUpC y = true ∧ w2 ≠ [] ∧ (∀ c ∈ w2, isWsC c = true) ∧ isUpC z = true := by
  unfold tryMatch at h
  split at h
  · exact absurd h (by simp)
  · rename_i h1
    split at h
    · exact absurd h (by simp)
    · rename_i y' r2 heq
      split at h
      · rename_i hy'
        unfold tm2 at h
        split at h
        · exact absurd h (by simp)
        · rename_i h2
          split at h
          · exact absurd h (by simp)
          · rename_i z' tail' heq2
            split at h
            · rename_i hz'
              simp only [Option.some.injEq, Prod.mk.injEq] at h
              obtain ⟨rfl, rfl, rfl⟩ := h
              refine ⟨rest.takeWhile isWsC, r2.takeWhile isWsC, ?_, ?_, ?_, hy', ?_, ?_, hz'⟩
              · conv_lhs => rw [← List.takeWhile_append_dropWhile (p := isWsC) (l := rest)]
                rw [heq]
                congr 2
                conv_lhs => rw [← List.takeWhile_append_dropWhile (p := isWsC) (l := r2)]
                rw [heq2]
              · intro hnil
                rw [hnil] at h1
                simp at h1
              · intro c hc; exact mem_takeWhile_sat hc
              · intro hnil
                rw [hnil] at h2
                simp at h2
              · intro c hc; exact mem_takeWhile_sat hc
            · exact absurd h (by simp)
      · exact absurd h (by simp)

theorem tryMatch_some_length {rest : List Char} {y z : Char} {tail : List Char}
    (h : tryMatch rest = some (y, z, tail)) : tail.length + 2 ≤ rest.length := by
  obtain ⟨w1, w2, hrest, hw1, -, -, hw2, -, -⟩ := tryMatch_some_decomp h
  subst hrest
  have l1 : 1 ≤ w1.length := List.length_pos.mpr hw1
  have l2 : 1 ≤ w2.length := List.length_pos.mpr hw2
  simp only [List.length_append, List.length_cons]
  omega

theorem fixCapsF_congr :
    ∀ (n : Nat) (m : Nat) (p : Bool) (l : List Char), l.length ≤ n → l.length ≤ m →
      fixCapsF n p l = fixCapsF m p l := by
  intro n
  induction n with
  | zero =>
    intro m p l hn _
    have : l = [] := List.length_eq_zero.mp (Nat.le_zero.mp hn)
    subst this
    cases m <;> rfl
  | succ n ih =>
    intro m p l hn hm
    cases l with
    | nil => cases m <;> rfl
    | cons c rest =>
      cases m with
      | zero => simp at hm
      | succ m' =>
        show fixCapsF (n + 1) p (c :: rest) = fixCapsF (m' + 1) p (c :: rest)
        have hrest : rest.length ≤ n := by
          simp only [List.length_cons] at hn
          omega
        have hrest' : rest.length ≤ m' := by
          simp only [List.length_cons] at hm
          omega
        unfold fixCapsF
        split
        · cases htm : tryMatch rest with
          | some v =>
            obtain ⟨y, z, tail⟩ := v
            have hlen := tryMatch_some_length htm
            simp only [htm]
            rw [ih m' true tail (by omega) (by omega)]
          | none =>
            simp only [htm]
            rw [ih m' (isWordC c) rest hrest hrest']
        · rw [ih m' (isWordC c) rest hrest hrest']

theorem fixCapsGo_nil (p : Bool) : fixCapsGo p [] = [] := rfl

theorem fixCapsGo_cons (p : Bool) (c : Char) (rest : List Char) :
    fixCapsGo p (c :: rest) =
      if !p && isUpC c then
        match tryMatch rest with
        | some (y, z, tail) => c :: y :: z :: fixCapsGo true tail
        | none => c :: fixCapsGo (isWordC c) rest
      else c :: fixCapsGo (isWordC c) rest := by
  show fixCapsF (rest.length + 1) p (c :: rest) = _
  unfold fixCapsF fixCapsGo
  split
  · cases htm : tryMatch rest with
    | some v =>
      obtain ⟨y, z, tail⟩ := v
      have hlen := tryMatch_some_length htm
      simp only [htm]
      rw [fixCapsF_congr rest.length tail.length true tail (by omega) (by omega)]
    | none => simp only [htm]
  · rfl

theorem Good_nil (p : Bool) : Good p [] := trivial

theorem Good_cons {p : Bool} {c : Char} {rest : List Char} :
    Good p (c :: rest) ↔
      (((!p && isUpC c) = true → tryMatch rest = none) ∧ Good (isWordC c) rest) := Iff.rfl

theorem Good_weaken {l : List Char} (h : Good false l) : ∀ p, Good p l := by
  intro p
  cases l with
  | nil => trivial
  | cons c rest =>
    obtain ⟨h1, h2⟩ := h
    refine ⟨fun hc => ?_, h2⟩
    have hup : isUpC c = true := ((Bool.and_eq_true _ _).mp hc).2
    exact h1 (by simp [hup])

theorem Good_id : ∀ (l : List Char) (p : Bool), Good p l → fixCapsGo p l = l := by
  intro l
  induction l with
  | nil => intro p _; rfl
  | cons c rest ih =>
    intro p h
    obtain ⟨h1, h2⟩ := h
    rw [fixCapsGo_cons]
    by_cases hc : (!p && isUpC c) = true
    · simp only [hc, if_true, h1 hc]
      rw [ih (isWordC c) h2]
    · simp only [hc, if_false, Bool.false_eq_true]
      rw [ih (isWordC c) h2]

/-- Computation of `tryMatch` after a nonempty whitespace run followed by a
non-whitespace character. -/
theorem tryMatch_ws_lead {w : List Char} {y : Char} (X : List Char)
    (hw : ∀ c ∈ w, isWsC c = true) (hwne : w ≠ []) (hy : isWsC y = false) :
    tryMatch (w ++ y :: X) = if isUpC y then tm2 y X else none := by
  obtain ⟨h1, h2⟩ := takeWhile_append_not_sat hw hy
  unfold tryMatch
  rw [h1, h2]
  simp only [List.isEmpty_eq_true, hwne, if_false]

/-- `tryMatch` on a pure-whitespace list fails. -/
theorem tryMatch_all_ws {w : List Char} (hw : ∀ c ∈ w, isWsC c = true) :
    tryMatch w = none := by
  cases w with
  | nil => rfl
  | cons a r =>
    unfold tryMatch
    rw [takeWhile_all_sat hw, dropWhile_all_sat hw]
    simp

/-- `tm2` computation after a nonempty whitespace run followed by a
non-whitespace character. -/
theorem tm2_ws_lead {w2 : List Char} {e : Char} (y : Char) (X : List Char)
    (hw : ∀ c ∈ w2, isWsC c = true) (hwne : w2 ≠ []) (he : isWsC e = false) :
    tm2 y (w2 ++ e :: X) = if isUpC e then some (y, e, X) else none := by
  obtain ⟨h1, h2⟩ := takeWhile_append_not_sat hw he
  unfold tm2
  rw [h1, h2]
  simp only [List.isEmpty_eq_true, hwne, if_false]

/-- `tm2` on a pure-whitespace remainder fails. -/
theorem tm2_all_ws (y : Char) {w2 : List Char} (hw : ∀ c ∈ w2, isWsC c = true) :
    tm2 y w2 = none := by
  cases w2 with
  | nil => rfl
  | cons a r =>
    unfold tm2
    rw [takeWhile_all_sat hw, dropWhile_all_sat hw]
    simp

/-- `tm2` fails when the remainder starts with a non-whitespace character. -/
theorem tm2_not_ws_head (y : Char) {e : Char} (X : List Char) (he : isWsC e = false) :
    tm2 y (e :: X) = none := by
  unfold tm2
  rw [List.takeWhile_cons_of_neg (by simp [he])]
  simp

theorem fixCapsGo_head (p : Bool) (c : Char) (r : List Char) :
    ∃ t, fixCapsGo p (c :: r) = c :: t := by
  rw [fixCapsGo_cons]
  split
  · cases htm : tryMatch r with
    | some v =>
      obtain ⟨y, z, tail⟩ := v
      exact ⟨_, rfl⟩
    | none => exact ⟨_, rfl⟩
  · exact ⟨_, rfl⟩

theorem fixCapsGo_ws_lead :
    ∀ (w : List Char), (∀ c ∈ w, isWsC c = true) → ∀ (p : Bool) (r : List Char),
      fixCapsGo p (w ++ r) = w ++ fixCapsGo (if w.isEmpty then p else false) r := by
  intro w
  induction w with
  | nil => intro _ p r; simp
  | cons a w' ih =>
    intro hw p r
    have ha : isWsC a = true := hw a (by simp)
    rw [List.cons_append, fixCapsGo_cons]
    have hup : isUpC a = false := ws_not_up ha
    simp only [hup, Bool.and_false, Bool.false_eq_true, if_false]
    rw [ws_not_word ha, ih (fun c hc => hw c (by simp [hc])) false r]
    simp

/-- The central transfer lemma: the despacing pass cannot create a match of
its own regex tail where none existed. -/
theorem tm2_none_fixCapsGo {y : Char} :
    ∀ (l : List Char) (p : Bool), tm2 y l = none → tm2 y (fixCapsGo p l) = none := by
  intro l p h
  rcases hl : l.takeWhile isWsC with _ | ⟨a, w'⟩
  · -- no leading whitespace: the head (if any) is preserved
    cases l with
    | nil => exact h
    | cons c r =>
      have hc : isWsC c = false := by
        by_contra hcc
        rw [List.takeWhile_cons_of_pos (by simpa using hcc)] at hl
        exact absurd hl (by simp)
      obtain ⟨t, ht⟩ := fixCapsGo_head p c r
      rw [ht]
      exact tm2_not_ws_head y t hc
  · -- nonempty leading whitespace run
    have hw : ∀ c ∈ l.takeWhile isWsC, isWsC c = true := fun c hc => mem_takeWhile_sat hc
    have hwne : l.takeWhile isWsC ≠ [] := by rw [hl]; simp
    have hdecomp : l = l.takeWhile isWsC ++ l.dropWhile isWsC :=
      (List.takeWhile_append_dropWhile isWsC l).symm
    rcases hm : l.dropWhile isWsC with _ | ⟨e, m'⟩
    · -- all whitespace
      have hl2 : l = l.takeWhile isWsC ++ ([] : List Char) := by
        conv_lhs => rw [hdecomp, hm]
      conv_lhs => rw [hl2, fixCapsGo_ws_lead _ hw]
      simp only [List.isEmpty_eq_true, hwne, if_false, fixCapsGo_nil, List.append_nil]
      exact tm2_all_ws y hw
    · have he : isWsC e = false := dropWhile_head_not_sat hm
      have hl2 : l = l.takeWhile isWsC ++ e :: m' := by
        conv_lhs => rw [hdecomp, hm]
      have hupe : isUpC e = false := by
        by_contra hue
        have hue' : isUpC e = true := by simpa using hue
        rw [hl2, tm2_ws_lead y m' hw hwne he, hue'] at h
        simp at h
      conv_lhs => rw [hl2, fixCapsGo_ws_lead _ hw]
      simp only [List.isEmpty_eq_true, hwne, if_false]
      obtain ⟨t, ht⟩ := fixCapsGo_head false e m'
      rw [ht, tm2_ws_lead y t hw hwne he, hupe]
      simp

/-- The despacing pass cannot create a match of the full regex where none
existed. -/
theorem tryMatch_none_fixCapsGo :
    ∀ (l : List Char) (p : Bool), tryMatch l = none → tryMatch (fixCapsGo p l) = none := by
  intro l p h
  rcases hl : l.takeWhile isWsC with _ | ⟨a, w'⟩
  · cases l with
    | nil => exact h
    | cons c r =>
      have hc : isWsC c = false := by
        by_contra hcc
        rw [List.takeWhile_cons_of_pos (by simpa using hcc)] at hl
        exact absurd hl (by simp)
      obtain ⟨t, ht⟩ := fixCapsGo_head p c r
      rw [ht]
      exact tryMatch_not_ws_head t hc
  · have hw : ∀ c ∈ l.takeWhile isWsC, isWsC c = true := fun c hc => mem_takeWhile_sat hc
    have hwne : l.takeWhile isWsC ≠ [] := by rw [hl]; simp
    have hdecomp : l = l.takeWhile isWsC ++ l.dropWhile isWsC :=
      (List.takeWhile_append_dropWhile isWsC l).symm
    rcases hm : l.dropWhile isWsC with _ | ⟨y, m'⟩
    · have hl2 : l = l.takeWhile isWsC ++ ([] : List Char) := by
        conv_lhs => rw [hdecomp, hm]
      conv_lhs => rw [hl2, fixCapsGo_ws_lead _ hw]
      simp only [List.isEmpty_eq_true, hwne, if_false, fixCapsGo_nil, List.append_nil]
      exact tryMatch_all_ws hw
    · have hy : isWsC y = false := dropWhile_head_not_sat hm
      have hl2 : l = l.takeWhile isWsC ++ y :: m' := by
        conv_lhs => rw [hdecomp, hm]
      conv_lhs => rw [hl2, fixCapsGo_ws_lead _ hw]
      simp only [List.isEmpty_eq_true, hwne, if_false]
      by_cases hyU : isUpC y = true
      · -- an upper head after the whitespace: the original tail must fail
        have htm2 : tm2 y m' = none := by
          rw [hl2, tryMatch_ws_lead m' hw hwne hy, hyU] at h
          simpa using h
        rw [fixCapsGo_cons]
        simp only [Bool.not_false, hyU, Bool.true_and, if_true]
        cases htm : tryMatch m' with
        | some v =>
          obtain ⟨y2, z2, tail⟩ := v
          obtain ⟨w1, w2, hm', hw1, hws1, hy2, -, -, -⟩ := tryMatch_some_decomp htm
          -- the match glues y2 right after y, so no whitespace follows y
          rw [tryMatch_ws_lead _ hw hwne hy, hyU, if_pos rfl]
          exact tm2_not_ws_head y _ (up_not_ws hy2)
        | none =>
          rw [tryMatch_ws_lead _ hw hwne hy, hyU, if_pos rfl]
          exact tm2_none_fixCapsGo m' (isWordC y) htm2
      · have hyU' : isUpC y = false := by simpa using hyU
        obtain ⟨t, ht⟩ := fixCapsGo_head false y m'
        rw [ht, tryMatch_ws_lead t hw hwne hy, hyU']
        simp

/-- The output of the despacing pass contains no match of the despacing
regex. -/
theorem good_fixCapsGo :
    ∀ (n : Nat) (l : List Char), l.length ≤ n → ∀ (p : Bool), Good p (fixCapsGo p l) := by
  intro n
  induction n with
  | zero =>
    intro l hl p
    have : l = [] := List.length_eq_zero.mp (Nat.le_zero.mp hl)
    subst this
    trivial
  | succ n ih =>
    intro l hl p
    cases l with
    | nil => trivial
    | cons c rest =>
      have hrest : rest.length ≤ n := by
        simp only [List.length_cons] at hl
        omega
      rw [fixCapsGo_cons]
      by_cases hcond : (!p && isUpC c) = true
      · simp only [hcond, if_true]
        have hupc : isUpC c = true := ((Bool.and_eq_true _ _).mp hcond).2
        cases htm : tryMatch rest with
        | some v =>
          obtain ⟨y, z, tail⟩ := v
          obtain ⟨w1, w2, -, -, -, hy, -, -, hz⟩ := tryMatch_some_decomp htm
          have hlen := tryMatch_some_length htm
          refine ⟨fun _ => tryMatch_not_ws_head _ (up_not_ws hy), ?_⟩
          rw [up_word hupc]
          refine ⟨fun hfalse => by simp at hfalse, ?_⟩
          rw [up_word hy]
          refine ⟨fun hfalse => by simp at hfalse, ?_⟩
          rw [up_word hz]
          exact ih tail (by omega) true
        | none =>
          refine ⟨fun _ => tryMatch_none_fixCapsGo rest (isWordC c) htm, ?_⟩
          exact ih rest hrest (isWordC c)
      · simp only [hcond, Bool.false_eq_true, if_false]
        refine ⟨fun hfalse => absurd hfalse hcond, ?_⟩
        exact ih rest hrest (isWordC c)

/-! ### Whitespace collapapsing -/

theorem collapse_head_not_ws {d : Char} (r : List Char) (hd : isWsC d = false) :
    ∃ t, collapseWs (d :: r) = d :: t := by
  cases r with
  | nil => exact ⟨[], by simp [collapseWs, hd]⟩
  | cons e r' => exact ⟨collapseWs (e :: r'), by simp [collapseWs, hd]⟩

theorem spaced_nil : spaced [] := ⟨by simp, by simp⟩

theorem spaced_singleton {c : Char} (h : isWsC c = true → c = ' ') : spaced [c] := by
  refine ⟨?_, by simp⟩
  intro x hx
  rcases List.mem_singleton.mp hx with rfl
  exact h

theorem spaced_cons_iff {c : Char} {r : List Char} :
    spaced (c :: r) ↔
      (isWsC c = true → c = ' ') ∧ (∀ b ∈ r.head?, c = ' ' → isWsC b = false) ∧ spaced r := by
  unfold spaced
  rw [List.chain'_cons']
  constructor
  · rintro ⟨hmem, hpair, hchain⟩
    exact ⟨hmem c (by simp), hpair, fun x hx => hmem x (by simp [hx]), hchain⟩
  · rintro ⟨hc, hpair, hmem, hchain⟩
    refine ⟨?_, hpair, hchain⟩
    intro x hx
    rcases List.mem_cons.mp hx with rfl | hx
    · exact hc
    · exact hmem x hx

theorem spaced_collapse : ∀ (n : Nat) (l : List Char), l.length ≤ n → spaced (collapseWs l) := by
  intro n
  induction n with
  | zero =>
    intro l hl
    have : l = [] := List.length_eq_zero.mp (Nat.le_zero.mp hl)
    subst this
    exact spaced_nil
  | succ n ih =>
    intro l hl
    match l with
    | [] => exact spaced_nil
    | [c] =>
      unfold collapseWs
      split
      · exact spaced_singleton (fun _ => rfl)
      · rename_i hc
        exact spaced_singleton (fun hws => absurd hws hc)
    | c :: d :: rest =>
      have hrest : (d :: rest).length ≤ n := by
        simp only [List.length_cons] at hl ⊢
        omega
      unfold collapseWs
      by_cases hc : isWsC c = true
      · by_cases hd : isWsC d = true
        · simp only [hc, hd, if_true]
          exact ih (d :: rest) hrest
        · simp only [hc, hd, if_true, Bool.false_eq_true, if_false]
          obtain ⟨t, ht⟩ := collapse_head_not_ws rest (by simpa using hd)
          rw [ht]
          rw [spaced_cons_iff]
          refine ⟨fun _ => rfl, ?_, ?_⟩
          · intro b hb _
            simp only [List.head?_cons, Option.mem_def, Option.some.injEq] at hb
            subst hb
            simpa using hd
          · rw [← ht]
            exact ih (d :: rest) hrest
      · simp only [hc, Bool.false_eq_true, if_false]
        have hcs : c ≠ ' ' := by
          rintro rfl
          exact hc space_is_ws
        cases hdd : collapseWs (d :: rest) with
        | nil =>
          rw [spaced_cons_iff]
          exact ⟨fun hws => absurd hws hc, by simp, spaced_nil⟩
        | cons x xs =>
          rw [spaced_cons_iff]
          refine ⟨fun hws => absurd hws hc, ?_, ?_⟩
          · intro b _ hcsp
            exact absurd hcsp hcs
          · rw [← hdd]
            exact ih (d :: rest) hrest

theorem spaced_id : ∀ (n : Nat) (l : List Char), l.length ≤ n → spaced l → collapseWs l = l := by
  intro n
  induction n with
  | zero =>
    intro l hl _
    have : l = [] := List.length_eq_zero.mp (Nat.le_zero.mp hl)
    subst this
    rfl
  | succ n ih =>
    intro l hl hsp
    match l with
    | [] => rfl
    | [c] =>
      unfold collapseWs
      split
      · rename_i hc
        rw [hsp.1 c (by simp) hc]
      · rfl
    | c :: d :: rest =>
      have hrest : (d :: rest).length ≤ n := by
        simp only [List.length_cons] at hl ⊢
        omega
      obtain ⟨hc, hpair, hrestSp⟩ := spaced_cons_iff.mp hsp
      unfold collapseWs
      by_cases hcw : isWsC c = true
      · have hcsp : c = ' ' := hc hcw
        have hdw : isWsC d = false := hpair d (by simp) hcsp
        simp only [hcw, hdw, if_true, Bool.false_eq_true, if_false]
        rw [ih (d :: rest) hrest hrestSp, hcsp]
      · simp only [hcw, Bool.false_eq_true, if_false]
        rw [ih (d :: rest) hrest hrestSp]

theorem collapse_eq_self {l : List Char} (h : spaced l) : collapseWs l = l :=
  spaced_id l.length l le_rfl h

theorem collapse_cons_not_ws {y : Char} (m : List Char) (hy : isWsC y = false) :
    collapseWs (y :: m) = y :: collapseWs m := by
  cases m with
  | nil => simp [collapseWs, hy]
  | cons d r => simp [collapseWs, hy]

theorem collapse_ws_ws {a b : Char} (X : List Char) (ha : isWsC a = true)
    (hb : isWsC b = true) : collapseWs (a :: b :: X) = collapseWs (b :: X) := by
  conv_lhs => unfold collapseWs
  simp [ha, hb]

theorem collapse_ws_lead :
    ∀ (w : List Char), (∀ c ∈ w, isWsC c = true) → w ≠ [] →
      ∀ (m : List Char), (m = [] ∨ ∃ e m', m = e :: m' ∧ isWsC e = false) →
        collapseWs (w ++ m) = ' ' :: collapseWs m := by
  intro w
  induction w with
  | nil => intro _ h; exact absurd rfl h
  | cons a w' ih =>
    intro hw _ m hm
    have ha : isWsC a = true := hw a (by simp)
    cases w' with
    | nil =>
      rcases hm with rfl | ⟨e, m', rfl, he⟩
      · simp [collapseWs, ha]
      · show collapseWs (a :: e :: m') = _
        simp [collapseWs, ha, he]
    | cons b w'' =>
      have hb : isWsC b = true := hw b (by simp)
      have hshape : (a :: b :: w'') ++ m = a :: b :: (w'' ++ m) := rfl
      rw [hshape, collapse_ws_ws _ ha hb]
      exact ih (fun c hc => hw c (by simp [hc])) (by simp) m hm

theorem tm2_none_collapse {y : Char} :
    ∀ (l : List Char), tm2 y l = none → tm2 y (collapseWs l) = none := by
  intro l h
  rcases hl : l.takeWhile isWsC with _ | ⟨a, w'⟩
  · cases l with
    | nil => exact h
    | cons c r =>
      have hc : isWsC c = false := by
        by_contra hcc
        rw [List.takeWhile_cons_of_pos (by simpa using hcc)] at hl
        exact absurd hl (by simp)
      obtain ⟨t, ht⟩ := collapse_head_not_ws r hc
      rw [ht]
      exact tm2_not_ws_head y t hc
  · have hw : ∀ c ∈ l.takeWhile isWsC, isWsC c = true := fun c hc => mem_takeWhile_sat hc
    have hwne : l.takeWhile isWsC ≠ [] := by rw [hl]; simp
    have hdecomp : l = l.takeWhile isWsC ++ l.dropWhile isWsC :=
      (List.takeWhile_append_dropWhile isWsC l).symm
    rcases hm : l.dropWhile isWsC with _ | ⟨e, m'⟩
    · have hl2 : l = l.takeWhile isWsC ++ ([] : List Char) := by
        conv_lhs => rw [hdecomp, hm]
      conv_lhs => rw [hl2, collapse_ws_lead _ hw hwne [] (Or.inl rfl)]
      exact tm2_all_ws y (by intro c hc; rcases List.mem_singleton.mp hc with rfl; decide)
    · have he : isWsC e = false := dropWhile_head_not_sat hm
      have hl2 : l = l.takeWhile isWsC ++ e :: m' := by
        conv_lhs => rw [hdecomp, hm]
      have hupe : isUpC e = false := by
        by_contra hue
        have hue' : isUpC e = true := by simpa using hue
        rw [hl2, tm2_ws_lead y m' hw hwne he, hue'] at h
        simp at h
      conv_lhs => rw [hl2, collapse_ws_lead _ hw hwne (e :: m') (Or.inr ⟨e, m', rfl, he⟩)]
      rw [collapse_cons_not_ws m' he]
      have : tm2 y (' ' :: e :: collapseWs m') = tm2 y ([' '] ++ e :: collapseWs m') := rfl
      rw [this, tm2_ws_lead y (collapseWs m') (by intro c hc; rcases List.mem_singleton.mp hc with rfl; decide) (by simp) he, hupe]
      simp

theorem tryMatch_none_collapse :
    ∀ (l : List Char), tryMatch l = none → tryMatch (collapseWs l) = none := by
  intro l h
  rcases hl : l.takeWhile isWsC with _ | ⟨a, w'⟩
  · cases l with
    | nil => exact h
    | cons c r =>
      have hc : isWsC c = false := by
        by_contra hcc
        rw [List.takeWhile_cons_of_pos (by simpa using hcc)] at hl
        exact absurd hl (by simp)
      obtain ⟨t, ht⟩ := collapse_head_not_ws r hc
      rw [ht]
      exact tryMatch_not_ws_head t hc
  · have hw : ∀ c ∈ l.takeWhile isWsC, isWsC c = true := fun c hc => mem_takeWhile_sat hc
    have hwne : l.takeWhile isWsC ≠ [] := by rw [hl]; simp
    have hdecomp : l = l.takeWhile isWsC ++ l.dropWhile isWsC :=
      (List.takeWhile_append_dropWhile isWsC l).symm
    rcases hm : l.dropWhile isWsC with _ | ⟨y, m'⟩
    · have hl2 : l = l.takeWhile isWsC ++ ([] : List Char) := by
        conv_lhs => rw [hdecomp, hm]
      conv_lhs => rw [hl2, collapse_ws_lead _ hw hwne [] (Or.inl rfl)]
      exact tryMatch_all_ws (by intro c hc; rcases List.mem_singleton.mp hc with rfl; decide)
    · have hy : isWsC y = false := dropWhile_head_not_sat hm
      have hl2 : l = l.takeWhile isWsC ++ y :: m' := by
        conv_lhs => rw [hdecomp, hm]
      conv_lhs => rw [hl2, collapse_ws_lead _ hw hwne (y :: m') (Or.inr ⟨y, m', rfl, hy⟩)]
      rw [collapse_cons_not_ws m' hy]
      have hrepr : (' ' :: y :: collapseWs m' : List Char) = [' '] ++ y :: collapseWs m' := rfl
      rw [hrepr, tryMatch_ws_lead (collapseWs m')
        (by intro c hc; rcases List.mem_singleton.mp hc with rfl; decide) (by simp) hy]
      by_cases hyU : isUpC y = true
      · rw [hyU, if_pos rfl]
        have htm2 : tm2 y m' = none := by
          rw [hl2, tryMatch_ws_lead m' hw hwne hy, hyU] at h
          simpa using h
        exact tm2_none_collapse m' htm2
      · have hyU' : isUpC y = false := by simpa using hyU
        rw [hyU']
        simp

theorem Good_collapse :
    ∀ (n : Nat) (l : List Char), l.length ≤ n → ∀ (p : Bool), Good p l →
      Good p (collapseWs l) := by
  intro n
  induction n with
  | zero =>
    intro l hl p _
    have : l = [] := List.length_eq_zero.mp (Nat.le_zero.mp hl)
    subst this
    trivial
  | succ n ih =>
    intro l hl p hg
    match l with
    | [] => trivial
    | [c] =>
      unfold collapseWs
      split
      · exact ⟨fun _ => tryMatch_nil, trivial⟩
      · exact ⟨fun _ => tryMatch_nil, trivial⟩
    | c :: d :: rest =>
      have hrest : (d :: rest).length ≤ n := by
        simp only [List.length_cons] at hl ⊢
        omega
      obtain ⟨h1, h2⟩ := hg
      unfold collapseWs
      by_cases hc : isWsC c = true
      · by_cases hd : isWsC d = true
        · simp only [hc, hd, if_true]
          rw [ws_not_word hc] at h2
          exact Good_weaken (ih (d :: rest) hrest false h2) p
        · simp only [hc, hd, if_true, Bool.false_eq_true, if_false]
          rw [ws_not_word hc] at h2
          refine ⟨fun hfalse => ?_, ?_⟩
          · rw [ws_not_up space_is_ws] at hfalse
            simp at hfalse
          · rw [ws_not_word space_is_ws]
            exact Good_weaken (ih (d :: rest) hrest false h2) false
      · simp only [hc, Bool.false_eq_true, if_false]
        refine ⟨fun hcond => ?_, ?_⟩
        · exact tryMatch_none_collapse (d :: rest) (h1 hcond)
        · exact ih (d :: rest) hrest (isWordC c) h2

/-! ### Trimming -/

theorem Good_dropWhile : ∀ (l : List Char) (p : Bool), Good p l → Good p (l.dropWhile isWsC) := by
  intro l
  induction l with
  | nil => intro p _; trivial
  | cons c rest ih =>
    intro p hg
    obtain ⟨h1, h2⟩ := hg
    by_cases hc : isWsC c = true
    · rw [List.dropWhile_cons_of_pos (by simpa using hc)]
      rw [ws_not_word hc] at h2
      exact Good_weaken (ih false h2) p
    · rw [List.dropWhile_cons_of_neg (by simpa using hc)]
      exact ⟨h1, h2⟩

theorem dropEndWs_decomp :
    ∀ (l : List Char), ∃ w, l = dropEndWs l ++ w ∧ ∀ c ∈ w, isWsC c = true := by
  intro l
  induction l with
  | nil => exact ⟨[], rfl, by simp⟩
  | cons c r ih =>
    obtain ⟨w, hw, hws⟩ := ih
    cases hr : dropEndWs r with
    | nil =>
      rw [hr, List.nil_append] at hw
      by_cases hc : isWsC c = true
      · refine ⟨c :: w, ?_, ?_⟩
        · simp only [dropEndWs, hr, hc, if_true]
          rw [← hw]
          rfl
        · intro x hx
          rcases List.mem_cons.mp hx with rfl | hx
          · exact hc
          · exact hws x hx
      · refine ⟨w, ?_, hws⟩
        simp only [dropEndWs, hr, hc, Bool.false_eq_true, if_false]
        rw [← hw]
        rfl
    | cons x xs =>
      refine ⟨w, ?_, hws⟩
      show c :: r = dropEndWs (c :: r) ++ w
      simp only [dropEndWs, hr]
      rw [List.cons_append, ← hr, ← hw]

theorem tryMatch_shape {w1 w2 : List Char} {y z : Char} (X : List Char)
    (hw1 : ∀ c ∈ w1, isWsC c = true) (hw1ne : w1 ≠ []) (hy : isUpC y = true)
    (hw2 : ∀ c ∈ w2, isWsC c = true) (hw2ne : w2 ≠ []) (hz : isUpC z = true) :
    tryMatch (w1 ++ y :: (w2 ++ z :: X)) = some (y, z, X) := by
  rw [tryMatch_ws_lead _ hw1 hw1ne (up_not_ws hy), hy, if_pos rfl,
    tm2_ws_lead y X hw2 hw2ne (up_not_ws hz), hz, if_pos rfl]

theorem tryMatch_none_of_append_ws {r w : List Char}
    (hw : ∀ c ∈ w, isWsC c = true) (h : tryMatch (r ++ w) = none) : tryMatch r = none := by
  cases htm : tryMatch r with
  | none => rfl
  | some v =>
    obtain ⟨y, z, t⟩ := v
    obtain ⟨w1, w2, hrr, hw1ne, hw1, hy, hw2ne, hw2, hz⟩ := tryMatch_some_decomp htm
    have hshape : r ++ w = w1 ++ y :: (w2 ++ z :: (t ++ w)) := by
      rw [hrr]
      simp
    rw [hshape, tryMatch_shape (t ++ w) hw1 hw1ne hy hw2 hw2ne hz] at h
    exact absurd h (by simp)

theorem Good_dropEnd : ∀ (l : List Char) (p : Bool), Good p l → Good p (dropEndWs l) := by
  intro l
  induction l with
  | nil => intro p _; trivial
  | cons c r ih =>
    intro p hg
    obtain ⟨h1, h2⟩ := hg
    cases hr : dropEndWs r with
    | nil =>
      simp only [dropEndWs, hr]
      split
      · trivial
      · exact ⟨fun _ => tryMatch_nil, trivial⟩
    | cons x xs =>
      simp only [dropEndWs, hr]
      obtain ⟨w, hwdec, hws⟩ := dropEndWs_decomp r
      refine ⟨fun hcond => ?_, ?_⟩
      · have hcat : tryMatch (dropEndWs r ++ w) = none := by
          rw [← hwdec]
          exact h1 hcond
        rw [hr] at hcat
        exact tryMatch_none_of_append_ws hws hcat
      · rw [← hr]
        exact ih (isWordC c) h2

theorem spaced_tail {c : Char} {r : List Char} (h : spaced (c :: r)) : spaced r :=
  (spaced_cons_iff.mp h).2.2

theorem spaced_dropWhile {l : List Char} (h : spaced l) : spaced (l.dropWhile isWsC) := by
  induction l with
  | nil => exact h
  | cons c rest ih =>
    by_cases hc : isWsC c = true
    · rw [List.dropWhile_cons_of_pos (by simpa using hc)]
      exact ih (spaced_tail h)
    · rw [List.dropWhile_cons_of_neg (by simpa using hc)]
      exact h

theorem dropEnd_head_of_ne_nil :
    ∀ {l : List Char} {x : Char} {xs : List Char}, dropEndWs l = x :: xs → l.head? = some x := by
  intro l x xs h
  obtain ⟨w, hdec, -⟩ := dropEndWs_decomp l
  rw [hdec, h]
  rfl

theorem spaced_dropEnd : ∀ {l : List Char}, spaced l → spaced (dropEndWs l) := by
  intro l
  induction l with
  | nil => intro h; exact h
  | cons c r ih =>
    intro h
    obtain ⟨hc, hpair, hr⟩ := spaced_cons_iff.mp h
    cases hdr : dropEndWs r with
    | nil =>
      simp only [dropEndWs, hdr]
      split
      · exact spaced_nil
      · exact spaced_singleton hc
    | cons x xs =>
      simp only [dropEndWs, hdr]
      rw [spaced_cons_iff]
      refine ⟨hc, ?_, ?_⟩
      · intro b hb hcsp
        simp only [List.head?_cons, Option.mem_def, Option.some.injEq] at hb
        have hhead : r.head? = some x := dropEnd_head_of_ne_nil hdr
        subst hb
        exact hpair x (by simp [Option.mem_def, hhead]) hcsp
      · rw [← hdr]
        exact ih hr

theorem dropWhile_idem {p : Char → Bool} (l : List Char) :
    (l.dropWhile p).dropWhile p = l.dropWhile p := by
  cases hr : l.dropWhile p with
  | nil => rfl
  | cons c t =>
    have := dropWhile_head_not_sat hr
    rw [List.dropWhile_cons_of_neg (by simp [this])]

theorem dropEndWs_cons_eq (c : Char) (r : List Char) :
    dropEndWs (c :: r) =
      match dropEndWs r with
      | [] => if isWsC c = true then [] else [c]
      | r' => c :: r' := rfl

theorem dropEnd_idem : ∀ (l : List Char), dropEndWs (dropEndWs l) = dropEndWs l := by
  intro l
  induction l with
  | nil => rfl
  | cons c r ih =>
    cases hr : dropEndWs r with
    | nil =>
      rw [dropEndWs_cons_eq, hr]
      by_cases hc : isWsC c = true
      · simp only [hc, if_true]
        rfl
      · simp [hc, dropEndWs]
    | cons x xs =>
      rw [hr] at ih
      have h1 : dropEndWs (c :: r) = c :: (x :: xs) := by
        rw [dropEndWs_cons_eq, hr]
      rw [h1, dropEndWs_cons_eq, ih]

theorem trim_fix (l : List Char) : trimWs (trimWs l) = trimWs l := by
  unfold trimWs
  have h1 : (dropEndWs (l.dropWhile isWsC)).dropWhile isWsC = dropEndWs (l.dropWhile isWsC) := by
    cases ht : dropEndWs (l.dropWhile isWsC) with
    | nil => rfl
    | cons c t =>
      have hhd : (l.dropWhile isWsC).head? = some c := dropEnd_head_of_ne_nil ht
      have hc : isWsC c = false := by
        cases hdw : l.dropWhile isWsC with
        | nil => rw [hdw] at hhd; simp at hhd
        | cons d t' =>
          rw [hdw] at hhd
          simp only [List.head?_cons, Option.some.injEq] at hhd
          subst hhd
          exact dropWhile_head_not_sat hdw
      rw [List.dropWhile_cons_of_neg (by simp [hc])]
  rw [h1, dropEnd_idem]

/-! ### The split and join of the per-line loop -/

theorem flatten_splitOnP (p : Char → Bool) :
    ∀ (l : List Char), (splitOnP p l).flatten = l.filter (fun c => !(p c)) := by
  intro l
  induction l with
  | nil => simp [splitOnP]
  | cons c r ih =>
    have hcons : splitOnP p (c :: r) =
        if p c then ([] : List Char) :: splitOnP p r
        else
          match splitOnP p r with
          | [] => [[c]]
          | a :: as => (c :: a) :: as := rfl
    by_cases hpc : p c = true
    · rw [hcons, if_pos hpc]
      simp only [List.flatten_cons, List.nil_append, ih, List.filter_cons]
      simp [hpc]
    · have hpc' : p c = false := by simpa using hpc
      cases hs : splitOnP p r with
      | nil => exact absurd hs (splitOnP_ne_nil p r)
      | cons a as =>
        rw [hcons, if_neg (by simp [hpc']), hs]
        rw [hs] at ih
        simp only [List.flatten_cons] at ih ⊢
        rw [List.cons_append, ih]
        simp [List.filter_cons, hpc']

theorem mem_flatten_splitOnP {p : Char → Bool} {l : List Char} {c : Char}
    (h : c ∈ (splitOnP p l).flatten) : c ∈ l ∧ p c = false := by
  rw [flatten_splitOnP p l] at h
  have := List.mem_filter.mp h
  exact ⟨this.1, by simpa using this.2⟩

/-! ### Lists without whitespace -/

theorem Good_noWs : ∀ (l : List Char), (∀ c ∈ l, isWsC c = false) → ∀ p, Good p l := by
  intro l
  induction l with
  | nil => intro _ p; trivial
  | cons c rest ih =>
    intro h p
    refine ⟨fun _ => ?_, ih (fun x hx => h x (by simp [hx])) (isWordC c)⟩
    cases rest with
    | nil => exact tryMatch_nil
    | cons d t => exact tryMatch_not_ws_head t (h d (by simp))

theorem spaced_noWs : ∀ {l : List Char}, (∀ c ∈ l, isWsC c = false) → spaced l := by
  intro l
  induction l with
  | nil => intro _; exact spaced_nil
  | cons c r ih =>
    intro h
    rw [spaced_cons_iff]
    refine ⟨fun hws => absurd hws (by simp [h c (by simp)]), ?_, ih (fun x hx => h x (by simp [hx]))⟩
    intro b _ hcsp
    subst hcsp
    exact absurd space_is_ws (by simp [h ' ' (by simp)])

theorem dropEnd_noWs : ∀ (l : List Char), (∀ c ∈ l, isWsC c = false) → dropEndWs l = l := by
  intro l
  induction l with
  | nil => intro _; rfl
  | cons c r ih =>
    intro h
    have hr : dropEndWs r = r := ih (fun x hx => h x (by simp [hx]))
    cases r with
    | nil =>
      rw [dropEndWs_cons_eq]
      simp [dropEndWs, h c (by simp)]
    | cons x xs =>
      rw [dropEndWs_cons_eq, hr]

theorem trim_noWs (l : List Char) (h : ∀ c ∈ l, isWsC c = false) : trimWs l = l := by
  unfold trimWs
  have h1 : l.dropWhile isWsC = l := by
    cases l with
    | nil => rfl
    | cons c r => exact List.dropWhile_cons_of_neg (by simp [h c (by simp)])
  rw [h1, dropEnd_noWs l h]

theorem spaced_no_nl {l : List Char} (h : spaced l) : ∀ c ∈ l, c ≠ '\n' := by
  intro c hc hnl
  subst hnl
  have := h.1 '\n' hc (by decide)
  exact absurd this (by decide)

/-! ### The assembled normalizer -/

theorem reconLine_eq (line : List Char) :
    reconLine line =
      if 10 < (splitOnP (fun c => c = ' ') line).length ∧
          (splitOnP (fun c => c = ' ') line).length <
            2 * ((splitOnP (fun c => c = ' ') line).filter (fun w => w.length = 1)).length
      then (splitOnP (fun c => c = ' ') line).flatten
      else line := rfl

theorem spaced_trim_collapse (x : List Char) : spaced (trimWs (collapseWs x)) := by
  unfold trimWs
  exact spaced_dropEnd (spaced_dropWhile (spaced_collapse x.length x le_rfl))

theorem cleanList_eq (l : List Char) :
    cleanList l = reconLine (trimWs (collapseWs (fixCapsGo false l))) := by
  unfold cleanList
  dsimp only
  have hsp : spaced (trimWs (collapseWs (fixCapsGo false l))) :=
    spaced_trim_collapse (fixCapsGo false l)
  rw [splitOnP_sepFree _ _ (fun c hc => by
    simp only [decide_eq_false_iff_not]
    exact spaced_no_nl hsp c hc)]
  simp [joinNl]

theorem cleanList_no_nl (l : List Char) : ∀ c ∈ cleanList l, c ≠ '\n' := by
  rw [cleanList_eq]
  have hsp : spaced (trimWs (collapseWs (fixCapsGo false l))) :=
    spaced_trim_collapse (fixCapsGo false l)
  rw [reconLine_eq]
  split
  · intro c hc
    exact spaced_no_nl hsp c (mem_flatten_splitOnP hc).1
  · exact spaced_no_nl hsp

theorem good_trim_collapse (l : List Char) :
    Good false (trimWs (collapseWs (fixCapsGo false l))) := by
  unfold trimWs
  exact Good_dropEnd _ false (Good_dropWhile _ false
    (Good_collapse (fixCapsGo false l).length (fixCapsGo false l) le_rfl false
      (good_fixCapsGo l.length l le_rfl false)))

theorem cleanList_idem (l : List Char) : cleanList (cleanList l) = cleanList l := by
  rw [cleanList_eq l]
  have hsp : spaced (trimWs (collapseWs (fixCapsGo false l))) :=
    spaced_trim_collapse (fixCapsGo false l)
  have hgood : Good false (trimWs (collapseWs (fixCapsGo false l))) := good_trim_collapse l
  set t := trimWs (collapseWs (fixCapsGo false l)) with htdef
  rw [reconLine_eq t]
  split
  · -- the join branch: the output has no whitespace at all, so every pass is
    -- the identity and the token list is a singleton
    set out := (splitOnP (fun c => c = ' ') t).flatten with houtdef
    have hnoWs : ∀ c ∈ out, isWsC c = false := by
      intro c hc
      obtain ⟨hmem, hnsp⟩ := mem_flatten_splitOnP hc
      by_contra hws
      have hws' : isWsC c = true := by simpa using hws
      have := hsp.1 c hmem hws'
      subst this
      simp at hnsp
    rw [cleanList_eq out]
    rw [Good_id out false (Good_noWs out hnoWs false)]
    rw [collapse_eq_self (spaced_noWs hnoWs)]
    rw [trim_noWs out hnoWs]
    rw [reconLine_eq out]
    rw [splitOnP_sepFree _ out (fun c hc => by
      simp only [decide_eq_false_iff_not]
      intro hsp'
      subst hsp'
      exact absurd space_is_ws (by simp [hnoWs ' ' hc]))]
    simp
  · -- the untouched branch: the line is already a fixed point of every pass
    rename_i hcond
    rw [cleanList_eq t]
    rw [Good_id t false hgood]
    rw [collapse_eq_self hsp]
    have htrim : trimWs t = t := by
      rw [htdef]
      unfold trimWs
      exact trim_fix (collapseWs (fixCapsGo false l))
    rw [htrim, reconLine_eq t, if_neg hcond]

/-! ## C5: the corrected shape of the normalizer -/

/-- C5 counterexample: the whitespace collapse of `cleanExtractedText` also
collapses newlines, so the two-line input `"a\nb"` becomes the single line
`"a b"` — the number of lines is not preserved and the second line is not left
unchanged. -/
theorem c5_line_merge :
    cleanExtractedText "a\nb" = "a b" ∧
    (splitOnP (fun c => c = '\n') "a\nb".data).length = 2 ∧
    (splitOnP (fun c => c = '\n') (cleanExtractedText "a\nb").data).length = 1 := by
  refine ⟨by decide, by decide, by decide⟩

/-- C5 as amended: the normalizer first joins capital-letter triples and
collapses every whitespace run — newlines included — to a single space and
trims, merging the whole input into one line (the output contains no
newline); the more-than-50%-single-character, more-than-10-token join rule is
then applied to that single merged line. -/
theorem c5_normalizer_shape (s : String) :
    cleanExtractedText s = ⟨reconLine (trimWs (collapseWs (fixCapsGo false s.data)))⟩ ∧
    ∀ c ∈ (cleanExtractedText s).data, c ≠ '\n' := by
  constructor
  · show (⟨cleanList s.data⟩ : String) = _
    rw [cleanList_eq]
  · intro c hc
    exact cleanList_no_nl s.data c hc

/-! ## C9: idempotence of the normalizer -/

/-- C9: the text normalizer is idempotent — applying `cleanExtractedText` to
its own output returns that output unchanged. -/
theorem c9_normalizer_idem (s : String) :
    cleanExtractedText (cleanExtractedText s) = cleanExtractedText s := by
  show (⟨cleanList (cleanList s.data)⟩ : String) = (⟨cleanList s.data⟩ : String)
  exact congrArg String.mk (cleanList_idem s.data)

end Bnk
